import Mathlib

/-!
Verification development for the youtube-shorts-pipeline repository.

The Python modules are shallowly embedded: dictionaries become association
lists over a JSON value type, floats become rationals, and the stateful
`PipelineState` class becomes explicit state passing over the embedded
draft document.  Timestamps (produced by `datetime.now` in the source) are
threaded as explicit string parameters.
-/

namespace Pipeline

/-- JSON values, the shape of Python dict/list/str/int/bool/None data that
the draft document and the stage ledger are made of.  Strings are lists of
characters so that serialisation and parsing can be stated by recursion. -/
inductive Json where
  | null : Json
  | bool (b : Bool) : Json
  | int (n : Int) : Json
  | str (s : List Char) : Json
  | arr (xs : List Json) : Json
  | obj (kvs : List (List Char × Json)) : Json

/-- A Python dict with string keys, as an insertion-ordered association list. -/
abbrev JDict := List (List Char × Json)

/-- `d[key]` lookup on a Python dict (also `d.get(key)` when present). -/
def jGet : JDict → List Char → Option Json
  | [], _ => none
  | (k, v) :: kvs, key => if k = key then some v else jGet kvs key

/-- `d[key] = val` on a Python dict: replaces in place if the key exists
(keeping its position), otherwise appends at the end. -/
def jSet : JDict → List Char → Json → JDict
  | [], key, val => [(key, val)]
  | (k, v) :: kvs, key, val =>
      if k = key then (k, val) :: kvs else (k, v) :: jSet kvs key val

/-- `entry.get(field)` on a JSON value that is expected to be a dict
(a non-dict yields `none`; in the source such a value would be a type error,
and reachable ledger entries are always dicts). -/
def jField (j : Json) (k : List Char) : Option Json :=
  match j with
  | .obj kvs => jGet kvs k
  | _ => none

namespace State

/-- `self.state.get(stage, {})` from `src/pipeline/state.py`. -/
def entryOf (st : JDict) (stage : List Char) : Json :=
  (jGet st stage).getD (.obj [])

/-- `PipelineState.is_done`: the entry's `"status"` field equals `"done"`. -/
def is_done (st : JDict) (stage : List Char) : Bool :=
  match jField (entryOf st stage) "status".data with
  | some (.str s) => s = "done".data
  | _ => false

/-- `PipelineState.is_failed`: the entry's `"status"` field equals `"failed"`. -/
def is_failed (st : JDict) (stage : List Char) : Bool :=
  match jField (entryOf st stage) "status".data with
  | some (.str s) => s = "failed".data
  | _ => false

/-- The fresh entry written by `complete_stage`: status, timestamp, and the
`"artifacts"` key only when `artifacts` is truthy (neither `None` nor `{}`). -/
def completedEntry (ts : List Char) (artifacts : Option JDict) : Json :=
  .obj ([("status".data, Json.str "done".data), ("timestamp".data, Json.str ts)] ++
    match artifacts with
    | some [] => []
    | none => []
    | some a => [("artifacts".data, Json.obj a)])

/-- `PipelineState.complete_stage`: overwrites the stage's entry with a fresh
done entry.  The wall-clock timestamp is passed explicitly. -/
def complete_stage (st : JDict) (stage ts : List Char) (artifacts : Option JDict) : JDict :=
  jSet st stage (completedEntry ts artifacts)

/-- `PipelineState.fail_stage`: overwrites the stage's entry with a fresh
failed entry carrying the error message. -/
def fail_stage (st : JDict) (stage ts err : List Char) : JDict :=
  jSet st stage (.obj [("status".data, Json.str "failed".data),
    ("timestamp".data, Json.str ts), ("error".data, Json.str err)])

/-- `PipelineState.get_artifact`: `entry.get("artifacts", {}).get(key, default)`. -/
def get_artifact (st : JDict) (stage key : List Char) (dflt : Json) : Json :=
  (jField ((jField (entryOf st stage) "artifacts".data).getD (.obj [])) key).getD dflt

/-- The ledger-mutating operations of `PipelineState`. -/
inductive Op where
  | complete (stage ts : List Char) (artifacts : Option JDict) : Op
  | fail (stage ts err : List Char) : Op
  | reset : Op

/-- One `PipelineState` method call acting on the embedded `_pipeline_state`
dict (`reset` reassigns it to `{}`). -/
def applyOp (st : JDict) : Op → JDict
  | .complete stage ts artifacts => complete_stage st stage ts artifacts
  | .fail stage ts err => fail_stage st stage ts err
  | .reset => []

/-- Run a sequence of method calls from a fresh (empty) ledger. -/
def runOps (ops : List Op) : JDict := ops.foldl applyOp []

/-- Does this operation call `complete_stage` on the given stage? -/
def isCompleteOn (stage : List Char) : Op → Bool
  | .complete s _ _ => s = stage
  | _ => false

end State

/-! ### Dictionary lemmas -/

theorem jGet_jSet_self (st : JDict) (k : List Char) (v : Json) :
    jGet (jSet st k v) k = some v := by
  induction st with
  | nil => simp [jGet, jSet]
  | cons hd tl ih =>
      obtain ⟨k0, v0⟩ := hd
      by_cases h : k0 = k
      · simp [jGet, jSet, h]
      · simp [jGet, jSet, h, ih]

theorem jGet_jSet_ne (st : JDict) (k k0 : List Char) (v : Json) (h : k0 ≠ k) :
    jGet (jSet st k0 v) k = jGet st k := by
  induction st with
  | nil => simp [jGet, jSet, h]
  | cons hd tl ih =>
      obtain ⟨k1, v1⟩ := hd
      by_cases h1 : k1 = k0
      · subst h1
        simp [jGet, jSet, h, Ne.symm h]
      · by_cases h2 : k1 = k <;> simp [jGet, jSet, h1, h2, ih, Ne.symm h]

namespace State

theorem is_done_complete_self (st : JDict) (stage ts : List Char)
    (artifacts : Option JDict) :
    is_done (complete_stage st stage ts artifacts) stage = true := by
  unfold is_done complete_stage entryOf
  rw [jGet_jSet_self]
  cases artifacts with
  | none => simp [completedEntry, jField, jGet]
  | some a => cases a <;> simp [completedEntry, jField, jGet]

theorem entry_complete_self (st : JDict) (stage ts : List Char)
    (artifacts : Option JDict) :
    jGet (complete_stage st stage ts artifacts) stage = some (completedEntry ts artifacts) := by
  unfold complete_stage
  exact jGet_jSet_self ..

theorem is_done_other (st : JDict) (stage s ts : List Char) (artifacts : Option JDict)
    (h : s ≠ stage) :
    is_done (complete_stage st s ts artifacts) stage = is_done st stage := by
  unfold is_done complete_stage entryOf
  rw [jGet_jSet_ne _ _ _ _ h]

theorem is_done_fail (st : JDict) (stage s ts err : List Char) :
    is_done (fail_stage st s ts err) stage = is_done st stage ∨
      is_done (fail_stage st s ts err) stage = false := by
  by_cases h : s = stage
  · subst h
    right
    unfold is_done fail_stage entryOf
    rw [jGet_jSet_self]
    simp [jField, jGet]
  · left
    unfold is_done fail_stage entryOf
    rw [jGet_jSet_ne _ _ _ _ h]

theorem is_done_empty (stage : List Char) : is_done [] stage = false := by
  simp [is_done, entryOf, jGet, jField]

/-- A ledger never reports a stage done unless some `complete_stage` for that
stage appears in the trace (helper for the C1 theorem). -/
theorem is_done_false_of_no_complete (ops : List Op) (stage : List Char)
    (h : ∀ op ∈ ops, isCompleteOn stage op = false) :
    is_done (runOps ops) stage = false := by
  suffices H : ∀ st, is_done st stage = false →
      is_done (ops.foldl applyOp st) stage = false from H [] (is_done_empty stage)
  induction ops with
  | nil => intro st hst; simpa using hst
  | cons op rest ih =>
      intro st hst
      have hop := h op (by simp)
      have hrest : ∀ op ∈ rest, isCompleteOn stage op = false := by
        intro o ho; exact h o (by simp [ho])
      rw [List.foldl_cons]
      refine ih hrest (applyOp st op) ?_
      cases op with
      | complete s ts a =>
          have hne : s ≠ stage := by
            intro hcon; simp [isCompleteOn, hcon] at hop
          simpa [applyOp, is_done_other st stage s ts a hne] using hst
      | fail s ts err =>
          rcases is_done_fail st stage s ts err with heq | heq
          · simpa [applyOp, heq] using hst
          · simpa [applyOp] using heq
      | reset => simpa [applyOp] using is_done_empty stage

theorem entryOf_jSet_self (st : JDict) (k : List Char) (v : Json) :
    entryOf (jSet st k v) k = v := by
  unfold entryOf
  rw [jGet_jSet_self]
  rfl

theorem entryOf_jSet_ne (st : JDict) (k k0 : List Char) (v : Json) (h : k0 ≠ k) :
    entryOf (jSet st k0 v) k = entryOf st k := by
  unfold entryOf
  rw [jGet_jSet_ne _ _ _ _ h]

theorem is_done_jSet_ne (st : JDict) (k0 k : List Char) (v : Json) (h : k0 ≠ k) :
    is_done (jSet st k0 v) k = is_done st k := by
  unfold is_done
  rw [entryOf_jSet_ne _ _ _ _ h]

theorem is_done_fail_self (st : JDict) (stage ts err : List Char) :
    is_done (fail_stage st stage ts err) stage = false := by
  unfold is_done fail_stage
  rw [entryOf_jSet_self]
  simp [jField, jGet]

theorem is_failed_fail_self (st : JDict) (stage ts err : List Char) :
    is_failed (fail_stage st stage ts err) stage = true := by
  unfold is_failed fail_stage
  rw [entryOf_jSet_self]
  simp [jField, jGet]

theorem jField_completedEntry_artifacts (ts : List Char) (artifacts : Option JDict) :
    jField (completedEntry ts artifacts) "artifacts".data =
      match artifacts with
      | some [] => none
      | none => none
      | some a => some (Json.obj a) := by
  cases artifacts with
  | none => simp [completedEntry, jField, jGet]
  | some a => cases a <;> simp [completedEntry, jField, jGet]

theorem get_artifact_complete (st : JDict) (stage ts key : List Char)
    (artifacts : Option JDict) (dflt : Json) :
    get_artifact (complete_stage st stage ts artifacts) stage key dflt =
      (jGet (artifacts.getD []) key).getD dflt := by
  unfold get_artifact complete_stage
  rw [entryOf_jSet_self, jField_completedEntry_artifacts]
  cases artifacts with
  | none => simp [jField, jGet]
  | some a => cases a <;> simp [jField, jGet]

theorem get_artifact_fail_self (st : JDict) (stage ts err key : List Char) (dflt : Json) :
    get_artifact (fail_stage st stage ts err) stage key dflt = dflt := by
  unfold get_artifact fail_stage
  rw [entryOf_jSet_self]
  simp [jField, jGet]

/-- Entries that are not done never carry an artifact mapping, on any ledger
reachable through the `PipelineState` methods. -/
theorem no_artifacts_unless_done (ops : List Op) (stage : List Char)
    (h : is_done (runOps ops) stage = false) :
    jField (entryOf (runOps ops) stage) "artifacts".data = none := by
  suffices H : ∀ st,
      (∀ s, is_done st s = false → jField (entryOf st s) "artifacts".data = none) →
      ∀ s, is_done (ops.foldl applyOp st) s = false →
        jField (entryOf (ops.foldl applyOp st) s) "artifacts".data = none by
    refine H [] ?_ stage h
    intro s _
    simp [entryOf, jGet, jField]
  clear h
  induction ops with
  | nil => intro st hst; simpa using hst
  | cons op rest ih =>
      intro st hst
      rw [List.foldl_cons]
      refine ih (applyOp st op) ?_
      intro s hs
      cases op with
      | complete s0 ts a =>
          simp only [applyOp, complete_stage] at hs ⊢
          by_cases he : s0 = s
          · subst he
            have hd := is_done_complete_self st s0 ts a
            simp only [complete_stage] at hd
            rw [hd] at hs
            exact absurd hs (by decide)
          · rw [entryOf_jSet_ne _ _ _ _ he]
            exact hst s (by rwa [is_done_jSet_ne st s0 s _ he] at hs)
      | fail s0 ts err =>
          simp only [applyOp, fail_stage] at hs ⊢
          by_cases he : s0 = s
          · subst he
            rw [entryOf_jSet_self]
            simp [jField, jGet]
          · rw [entryOf_jSet_ne _ _ _ _ he]
            exact hst s (by rwa [is_done_jSet_ne st s0 s _ he] at hs)
      | reset => simp [applyOp, entryOf, jGet, jField]

end State

/-! ### Claim theorems on the Stage Ledger -/

open State

/-- C1: for every job record and stage: a ledger built from a fresh state by
`PipelineState` calls none of which is `complete_stage` for the stage reports
`is_done = false`; immediately after `complete_stage(stage, artifacts)` the
stage is done and its entry is exactly the fresh done entry (prior error and
artifacts gone); immediately after `fail_stage(stage, error)` the stage is not
done, is failed, and retains no artifacts; after `reset()` every stage is
pending (neither done nor failed). -/
theorem claim_C1 :
    (∀ ops stage, (∀ op ∈ ops, isCompleteOn stage op = false) →
        is_done (runOps ops) stage = false) ∧
    (∀ st stage ts artifacts,
        is_done (complete_stage st stage ts artifacts) stage = true ∧
        jGet (complete_stage st stage ts artifacts) stage =
          some (completedEntry ts artifacts) ∧
        jField (entryOf (complete_stage st stage ts artifacts) stage) "error".data = none) ∧
    (∀ st stage ts err,
        is_done (fail_stage st stage ts err) stage = false ∧
        is_failed (fail_stage st stage ts err) stage = true ∧
        ∀ key dflt, get_artifact (fail_stage st stage ts err) stage key dflt = dflt) ∧
    (∀ ops stage,
        is_done (runOps (ops ++ [Op.reset])) stage = false ∧
        is_failed (runOps (ops ++ [Op.reset])) stage = false) := by
  refine ⟨is_done_false_of_no_complete, ?_, ?_, ?_⟩
  · intro st stage ts artifacts
    refine ⟨is_done_complete_self .., entry_complete_self .., ?_⟩
    rw [complete_stage, entryOf_jSet_self]
    cases artifacts with
    | none => simp [completedEntry, jField, jGet]
    | some a => cases a <;> simp [completedEntry, jField, jGet]
  · intro st stage ts err
    exact ⟨is_done_fail_self .., is_failed_fail_self .., fun key dflt =>
      get_artifact_fail_self ..⟩
  · intro ops stage
    have hempty : runOps (ops ++ [Op.reset]) = [] := by
      unfold runOps
      rw [List.foldl_append]
      rfl
    rw [hempty]
    exact ⟨is_done_empty stage, by simp [is_failed, entryOf, jGet, jField]⟩

/-- Closed witness for C1 at a concrete trace. -/
theorem claim_C1_witness :
    (∀ op ∈ [Op.fail "broll".data "t0".data "boom".data], isCompleteOn "voiceover".data op = false) ∧
    is_done (runOps [Op.fail "broll".data "t0".data "boom".data]) "voiceover".data = false :=
  ⟨by decide, claim_C1.1 [Op.fail "broll".data "t0".data "boom".data] "voiceover".data (by decide)⟩

/-- C9: `get_artifact(stage, key, default)` reads back a previously recorded
artifact value (the value stored for `key` by the `complete_stage` call, or
the default if `key` is absent from the recorded mapping), and on any ledger
reachable through the `PipelineState` methods it returns the default whenever
the stage is not done (absent or failed). -/
theorem claim_C9 :
    (∀ st stage ts artifacts key dflt,
        get_artifact (complete_stage st stage ts (some artifacts)) stage key dflt =
          (jGet artifacts key).getD dflt) ∧
    (∀ ops stage key dflt,
        is_done (runOps ops) stage = false →
        get_artifact (runOps ops) stage key dflt = dflt) := by
  constructor
  · intro st stage ts artifacts key dflt
    rw [get_artifact_complete]
    rfl
  · intro ops stage key dflt h
    unfold get_artifact
    rw [no_artifacts_unless_done ops stage h]
    simp [jField, jGet]

/-- Closed witness for C9 at a concrete failed-stage trace. -/
theorem claim_C9_witness :
    is_done (runOps [Op.fail "broll".data "t0".data "boom".data]) "broll".data = false ∧
    get_artifact (runOps [Op.fail "broll".data "t0".data "boom".data]) "broll".data
      "frames".data Json.null = Json.null :=
  ⟨by decide,
    claim_C9.2 [Op.fail "broll".data "t0".data "boom".data] "broll".data
      "frames".data Json.null (by decide)⟩

/-- C10: `complete_stage` with an empty artifacts dict records no artifact
mapping at all: it produces the same entry as calling it with `None`, the
stage is done, and `get_artifact` returns the default for every key. -/
theorem claim_C10 :
    ∀ st stage ts,
      complete_stage st stage ts (some []) = complete_stage st stage ts none ∧
      is_done (complete_stage st stage ts (some [])) stage = true ∧
      ∀ key dflt, get_artifact (complete_stage st stage ts (some [])) stage key dflt = dflt := by
  intro st stage ts
  refine ⟨rfl, is_done_complete_self .., ?_⟩
  intro key dflt
  rw [get_artifact_complete]
  rfl

/-! ### Caption synthesis (`src/pipeline/captions.py`) -/

namespace Captions

/-- One Whisper word timestamp `{"word": ..., "start": ..., "end": ...}`
(times as rationals; `end` is a Lean keyword, hence `stop`). -/
structure Word where
  word : List Char
  start : ℚ
  stop : ℚ
  deriving DecidableEq

/-- `_group_words`: chunks of `group_size` in order, last chunk shorter.
`group_size = 0` would raise `ValueError` in Python's `range`; the embedding
returns `[]` there and every theorem assumes `0 < group_size`. -/
def group_words (g : Nat) : List Word → List (List Word)
  | [] => []
  | w :: rest =>
      if hg : g = 0 then [] else
        (w :: rest).take g :: group_words g ((w :: rest).drop g)
termination_by ws => ws.length
decreasing_by simp; omega

/-- Python `" ".join(...)` on a list of strings. -/
def spaceJoin (xs : List (List Char)) : List Char :=
  (List.intersperse [' '] xs).flatten

/-- One SRT block: 1-based index, group start/end times, joined text
(time-string formatting is orthogonal to the counting claim and elided). -/
structure SrtEntry where
  idx : Nat
  start : ℚ
  stop : ℚ
  text : List Char
  deriving DecidableEq

/-- The loop of `_generate_srt`: `enumerate(groups, 1)` advancing the index on
every group, skipping empty groups, emitting `[group first start, group last
end]` and the space-joined words. -/
def srtEntriesAux : Nat → List (List Word) → List SrtEntry
  | _, [] => []
  | i, [] :: gs => srtEntriesAux (i + 1) gs
  | i, (w :: rest) :: gs =>
      { idx := i, start := w.start, stop := (rest.getLastD w).stop,
        text := spaceJoin ((w :: rest).map Word.word) } :: srtEntriesAux (i + 1) gs

/-- `_generate_srt` with an explicit group size (the source fixes 4). -/
def srtEntriesWith (g : Nat) (ws : List Word) : List SrtEntry :=
  srtEntriesAux 1 (group_words g ws)

/-- `_generate_srt` as called in the source: groups of 4. -/
def srtEntries (ws : List Word) : List SrtEntry := srtEntriesWith 4 ws

/-- One ASS `Dialogue:` event (word start/end plus the rendered group text). -/
structure AssEvent where
  start : ℚ
  stop : ℚ
  text : List Char
  deriving DecidableEq

/-- The ASS override tag opening the highlighted (yellow/bold/larger) word. -/
def hlOpen : List Char := "\x7b\\c&H00FFFF&\\b1\\fs80\x7d".data

/-- The ASS override tag resetting to the base style. -/
def hlClose : List Char := "\x7b\\r\x7d".data

/-- The dialogue text of `_generate_ass` for one active word: every word of the
group space-joined, the active one wrapped in override tags. -/
def assHighlightText (group : List Word) (activeIdx : Nat) : List Char :=
  spaceJoin (group.enum.map fun p =>
    if p.1 = activeIdx then hlOpen ++ p.2.word ++ hlClose else p.2.word)

/-- The inner loop of `_generate_ass`: one event per word of the group,
spanning exactly that word's `[start, end]`. -/
def assEventsOfGroup (group : List Word) : List AssEvent :=
  group.enum.map fun p =>
    { start := p.2.start, stop := p.2.stop, text := assHighlightText group p.1 }

/-- `_generate_ass` events: groups of 4, each word of each group yielding one
dialogue event (the `if not group: continue` guard is a no-op here since an
empty group contributes no events). -/
def assEvents (ws : List Word) : List AssEvent :=
  ((group_words 4 ws).map assEventsOfGroup).flatten

theorem group_words_length (g : Nat) (hg : 0 < g) (ws : List Word) :
    (group_words g ws).length = (ws.length + g - 1) / g := by
  induction ws using group_words.induct g with
  | case1 =>
      rw [group_words]
      simp only [List.length_nil]
      rw [Nat.zero_add, Nat.div_eq_of_lt (by omega)]
  | case2 w rest hzero => omega
  | case3 w rest hzero ih =>
      rw [group_words, dif_neg hzero, List.length_cons, ih]
      have hlen : ((w :: rest).drop g).length = rest.length + 1 - g := by simp
      rw [hlen, List.length_cons]
      rcases Nat.lt_or_ge (rest.length + 1) g with hlt | hge
      · have h1 : rest.length + 1 - g = 0 := by omega
        rw [h1, Nat.zero_add, Nat.div_eq_of_lt (by omega)]
        have h2 : rest.length + 1 + g - 1 = g * 1 + rest.length := by omega
        rw [h2, Nat.mul_add_div hg, Nat.div_eq_of_lt (by omega)]
      · have h2 : rest.length + 1 + g - 1 = (rest.length + 1 - g + g - 1) + g := by omega
        rw [h2, Nat.add_div_right _ hg]

theorem group_words_ne_nil (g : Nat) (hg : 0 < g) (ws : List Word) :
    ∀ grp ∈ group_words g ws, grp ≠ [] := by
  induction ws using group_words.induct g with
  | case1 => simp [group_words]
  | case2 w rest hzero => omega
  | case3 w rest hzero ih =>
      rw [group_words, dif_neg hzero]
      intro grp hgrp
      rcases List.mem_cons.mp hgrp with heq | hmem
      · subst heq
        cases g with
        | zero => omega
        | succ g0 => simp
      · exact ih grp hmem

theorem group_words_flatten (g : Nat) (hg : 0 < g) (ws : List Word) :
    (group_words g ws).flatten = ws := by
  induction ws using group_words.induct g with
  | case1 => simp [group_words]
  | case2 w rest hzero => omega
  | case3 w rest hzero ih =>
      rw [group_words, dif_neg hzero, List.flatten_cons, ih]
      exact List.take_append_drop g (w :: rest)

/-- The span relation between an SRT entry and its caption group. -/
def SrtSpans (e : SrtEntry) (grp : List Word) : Prop :=
  ∃ w rest, grp = w :: rest ∧ e.start = w.start ∧ e.stop = (rest.getLastD w).stop

theorem srtEntriesAux_spec (gs : List (List Word)) (hne : ∀ grp ∈ gs, grp ≠ []) (i : Nat) :
    (srtEntriesAux i gs).length = gs.length ∧
    (srtEntriesAux i gs).map SrtEntry.idx = List.range' i gs.length ∧
    List.Forall₂ SrtSpans (srtEntriesAux i gs) gs := by
  induction gs generalizing i with
  | nil => simp [srtEntriesAux]
  | cons grp gs ih =>
      cases grp with
      | nil => exact absurd rfl (hne [] (by simp))
      | cons w rest =>
          have hrest : ∀ grp ∈ gs, grp ≠ [] := fun g hg => hne g (by simp [hg])
          obtain ⟨h1, h2, h3⟩ := ih hrest (i + 1)
          refine ⟨by simp [srtEntriesAux, h1], ?_, ?_⟩
          · rw [srtEntriesAux, List.map_cons, h2, List.length_cons, List.range'_succ]
          · exact List.Forall₂.cons ⟨w, rest, rfl, rfl, rfl⟩ h3

theorem map_snd_enumFrom {α β : Type} (f : α → β) (n : Nat) (l : List α) :
    (List.enumFrom n l).map (fun p => f p.2) = l.map f := by
  induction l generalizing n with
  | nil => rfl
  | cons a l ih => simp only [List.enumFrom, List.map_cons]; rw [ih]

theorem assEventsOfGroup_spans (grp : List Word) :
    (assEventsOfGroup grp).map (fun e => (e.start, e.stop)) =
      grp.map (fun w => (w.start, w.stop)) := by
  unfold assEventsOfGroup
  rw [List.map_map]
  exact map_snd_enumFrom (fun w => (w.start, w.stop)) 0 grp

theorem assEvents_spans (ws : List Word) :
    (assEvents ws).map (fun e => (e.start, e.stop)) =
      ws.map (fun w => (w.start, w.stop)) := by
  unfold assEvents
  rw [List.map_flatten, List.map_map]
  have hcong : (group_words 4 ws).map
      ((List.map fun e => (e.start, e.stop)) ∘ assEventsOfGroup) =
      (group_words 4 ws).map (List.map fun w => (w.start, w.stop)) :=
    List.map_congr_left fun grp _ => assEventsOfGroup_spans grp
  rw [hcong, ← List.map_flatten, group_words_flatten 4 (by omega) ws]

/-- C2: with group size `g > 0`, the SRT rendering has exactly
`⌈n / g⌉ = (n + g - 1) / g` entries, indexed `1, 2, …` in order, each spanning
its group's first word start to last word end; the ASS rendering has exactly
`n` dialogue events whose `[start, end]` spans are exactly the words' spans in
order; both renderings are empty for an empty word sequence.  The source fixes
`g = 4` (`srtEntries`). -/
theorem claim_C2 (ws : List Word) (g : Nat) (hg : 0 < g) :
    (srtEntriesWith g ws).length = (ws.length + g - 1) / g ∧
    (srtEntriesWith g ws).map SrtEntry.idx = List.range' 1 ((ws.length + g - 1) / g) ∧
    List.Forall₂ SrtSpans (srtEntriesWith g ws) (group_words g ws) ∧
    (assEvents ws).length = ws.length ∧
    (assEvents ws).map (fun e => (e.start, e.stop)) = ws.map (fun w => (w.start, w.stop)) ∧
    srtEntries ws = srtEntriesWith 4 ws ∧
    (ws = [] → srtEntriesWith g ws = [] ∧ assEvents ws = []) := by
  have hne := group_words_ne_nil g hg ws
  obtain ⟨h1, h2, h3⟩ := srtEntriesAux_spec (group_words g ws) hne 1
  have hglen := group_words_length g hg ws
  refine ⟨?_, ?_, h3, ?_, assEvents_spans ws, rfl, ?_⟩
  · rw [srtEntriesWith, h1, hglen]
  · rw [srtEntriesWith, h2, hglen]
  · have := congrArg List.length (assEvents_spans ws)
    simpa using this
  · intro hws
    subst hws
    constructor
    · rw [srtEntriesWith, group_words]
      rfl
    · rw [assEvents, group_words]
      rfl

/-- Closed witness for C2: five words in groups of four give two SRT entries
and five ASS events. -/
theorem claim_C2_witness :
    (0 : Nat) < 4 ∧
    (srtEntriesWith 4 [⟨"a".data, 0, 1⟩, ⟨"b".data, 1, 2⟩, ⟨"c".data, 2, 3⟩,
        ⟨"d".data, 3, 4⟩, ⟨"e".data, 4, 5⟩]).length =
      (([⟨"a".data, 0, 1⟩, ⟨"b".data, 1, 2⟩, ⟨"c".data, 2, 3⟩,
        ⟨"d".data, 3, 4⟩, ⟨"e".data, 4, 5⟩] : List Word).length + 4 - 1) / 4 :=
  ⟨by decide,
    (claim_C2 [⟨"a".data, 0, 1⟩, ⟨"b".data, 1, 2⟩, ⟨"c".data, 2, 3⟩,
      ⟨"d".data, 3, 4⟩, ⟨"e".data, 4, 5⟩] 4 (by decide)).1⟩

end Captions

/-! ### Retry wrapper (`src/pipeline/retry.py`) -/

namespace Retry

/-- The observable outcome of the wrapped call: the returned value or the
re-raised exception, the sleeps performed (in order, as delays in seconds),
and how many times the wrapped function was invoked. -/
structure RetryOutcome (ε α : Type) where
  result : Except ε α
  sleeps : List ℚ
  calls : Nat
  deriving Repr

/-- The loop body of `with_retry`'s `wrapper` from attempt number `attempt`:
`for attempt in range(max_retries + 1)` — the `op` argument gives the result of
the i-th invocation of the wrapped function (`.error` models a raised
exception).  On exception, sleep `base_delay * 2 ** attempt` only while
`attempt < max_retries`; after the loop, re-raise the last exception. -/
def retryFrom {ε α : Type} (op : Nat → Except ε α) (base : ℚ) (maxRetries : Nat)
    (attempt : Nat) : RetryOutcome ε α :=
  match op attempt with
  | .ok v => ⟨.ok v, [], 1⟩
  | .error e =>
      if h : attempt < maxRetries then
        let r := retryFrom op base maxRetries (attempt + 1)
        ⟨r.result, base * 2 ^ attempt :: r.sleeps, r.calls + 1⟩
      else ⟨.error e, [], 1⟩
termination_by maxRetries - attempt
decreasing_by omega

/-- `with_retry(max_retries, base_delay)` applied to a fallible operation. -/
def with_retry {ε α : Type} (maxRetries : Nat) (base : ℚ) (op : Nat → Except ε α) :
    RetryOutcome ε α :=
  retryFrom op base maxRetries 0

theorem retryFrom_spec_ok {ε α : Type} (op : Nat → Except ε α) (base : ℚ)
    (maxRetries : Nat) (v : α) :
    ∀ j attempt, attempt + j ≤ maxRetries →
      (∀ i, attempt ≤ i → i < attempt + j → ∃ e, op i = .error e) →
      op (attempt + j) = .ok v →
      retryFrom op base maxRetries attempt =
        ⟨.ok v, (List.range' attempt j).map (fun i => base * 2 ^ i), j + 1⟩ := by
  intro j
  induction j with
  | zero =>
      intro attempt _ _ hok
      rw [retryFrom]
      simp only [Nat.add_zero] at hok
      rw [hok]
      rfl
  | succ j ih =>
      intro attempt hle herr hok
      obtain ⟨e, he⟩ := herr attempt le_rfl (by omega)
      have hrec := ih (attempt + 1) (by omega)
        (fun i hi1 hi2 => herr i (by omega) (by omega))
        (by rw [show attempt + 1 + j = attempt + (j + 1) by omega]; exact hok)
      rw [retryFrom, he]
      simp only [dif_pos (show attempt < maxRetries from by omega), hrec,
        List.range'_succ, List.map_cons]

theorem retryFrom_spec_err {ε α : Type} (op : Nat → Except ε α) (base : ℚ)
    (maxRetries : Nat) (err : Nat → ε)
    (herr : ∀ i, i ≤ maxRetries → op i = .error (err i)) :
    ∀ j attempt, attempt + j = maxRetries →
      retryFrom op base maxRetries attempt =
        ⟨.error (err maxRetries), (List.range' attempt j).map (fun i => base * 2 ^ i),
          j + 1⟩ := by
  intro j
  induction j with
  | zero =>
      intro attempt heq
      simp only [Nat.add_zero] at heq
      subst heq
      rw [retryFrom, herr attempt le_rfl]
      simp only [dif_neg (show ¬ attempt < attempt from by omega)]
      rfl
  | succ j ih =>
      intro attempt heq
      have hrec := ih (attempt + 1) (by omega)
      rw [retryFrom, herr attempt (by omega)]
      simp only [dif_pos (show attempt < maxRetries from by omega), hrec,
        List.range'_succ, List.map_cons]

/-- C3: wrapping an operation that fails on its first `k` invocations and
succeeds on invocation `k` (0-indexed), with `k ≤ max_retries`, returns the
success value after exactly `k + 1` invocations and exactly `k` sleeps with
delays `base·2^0, …, base·2^(k-1)`; an operation that fails on every
invocation is invoked exactly `max_retries + 1` times and the wrapper
re-raises the exception of the last invocation. -/
theorem claim_C3 {ε α : Type} (op : Nat → Except ε α) (base : ℚ) (maxRetries : Nat) :
    (∀ k v, k ≤ maxRetries →
      (∀ i, i < k → ∃ e, op i = .error e) →
      op k = .ok v →
      with_retry maxRetries base op =
        ⟨.ok v, (List.range k).map (fun i => base * 2 ^ i), k + 1⟩) ∧
    (∀ err : Nat → ε, (∀ i, i ≤ maxRetries → op i = .error (err i)) →
      with_retry maxRetries base op =
        ⟨.error (err maxRetries),
          (List.range maxRetries).map (fun i => base * 2 ^ i), maxRetries + 1⟩) := by
  constructor
  · intro k v hk herr hok
    rw [with_retry, retryFrom_spec_ok op base maxRetries v k 0 (by omega)
      (fun i hi1 hi2 => herr i (by omega)) (by simpa using hok)]
    rw [List.range_eq_range']
  · intro err herr
    rw [with_retry, retryFrom_spec_err op base maxRetries err herr maxRetries 0 (by omega)]
    rw [List.range_eq_range']

/-- Closed witness for C3: one failure then success, with `max_retries = 3`
and `base_delay = 2` (the source defaults): one sleep of 2 seconds, two calls. -/
theorem claim_C3_witness :
    let op : Nat → Except (List Char) (List Char) :=
      fun i => if i = 0 then .error "HTTP 500".data else .ok "payload".data
    (1 ≤ 3 ∧ (∀ i, i < 1 → ∃ e, op i = .error e) ∧ op 1 = .ok "payload".data) ∧
    with_retry 3 (2 : ℚ) op =
      ⟨.ok "payload".data, (List.range 1).map (fun i => (2 : ℚ) * 2 ^ i), 2⟩ := by
  refine ⟨⟨by omega, ?_, rfl⟩, ?_⟩
  · intro i hi
    exact ⟨"HTTP 500".data, by interval_cases i <;> rfl⟩
  · exact (claim_C3 _ 2 3).1 1 "payload".data (by omega)
      (fun i hi => ⟨"HTTP 500".data, by interval_cases i <;> rfl⟩) rfl

end Retry

/-! ### Number formatting shared by the ducking filter and the serializer -/

/-- The decimal digit character for `n < 10`. -/
def digitChar (n : Nat) : Char := Char.ofNat (48 + n)

/-- Decimal digits with explicit fuel (kept structural so that concrete
instances evaluate inside the kernel). -/
def natDigitsAux : Nat → Nat → List Char
  | 0, _ => []
  | fuel + 1, n =>
      if n < 10 then [digitChar n]
      else natDigitsAux fuel (n / 10) ++ [digitChar (n % 10)]

/-- Decimal digits of a natural number, most significant first (Python
`str(n)` for `n ≥ 0`); `n + 1` units of fuel always suffice. -/
def natDigits (n : Nat) : List Char := natDigitsAux (n + 1) n

namespace Music

/-- Round to the nearest integer, ties to even (the rounding used by Python
float formatting). -/
def roundHalfEven (x : ℚ) : ℤ :=
  let f := ⌊x⌋
  if x - f < 1/2 then f
  else if x - f > 1/2 then f + 1
  else if f % 2 = 0 then f else f + 1

/-- `n` as two decimal digits, zero padded. -/
def pad2 (n : Nat) : List Char :=
  if n < 10 then "0".data ++ [digitChar n] else natDigits n

/-- Python `f"{x:.2f}"` on the embedded rational: two-decimal fixed-point
formatting with ties-to-even.  (Python formats the IEEE double; on inputs
exactly representable in binary, as in the claims' instances, the two
agree.) -/
def format2 (x : ℚ) : List Char :=
  let m := roundHalfEven (x * 100)
  (if m < 0 then "-".data else []) ++
    natDigits (m.natAbs / 100) ++ ".".data ++ pad2 (m.natAbs % 100)

/-- One `between(t,{s:.2f},{e:.2f})` condition of `build_duck_filter`, with
the padded interval `[max(0, start - buffer), end + buffer]`. -/
def duckCondition (buffer : ℚ) (region : ℚ × ℚ) : List Char :=
  "between(t,".data ++ format2 (max 0 (region.1 - buffer)) ++ ",".data ++
    format2 (region.2 + buffer) ++ ")".data

/-- `build_duck_filter` from `src/pipeline/music.py`: constant `volume=0.25`
for no speech regions, otherwise the per-frame `if(... , 0.12, 0.25)` gain
expression over the `+`-joined (logical OR) interval conditions. -/
def build_duck_filter (speech_regions : List (ℚ × ℚ)) (buffer : ℚ) : List Char :=
  match speech_regions with
  | [] => "volume=0.25".data
  | _ =>
      let conditions := speech_regions.map (duckCondition buffer)
      "volume=\x27if(".data ++ (List.intersperse "+".data conditions).flatten ++
        ", 0.12, 0.25)\x27:eval=frame".data

/-- C4: on an empty region list the builder returns exactly `volume=0.25`;
on a non-empty list it returns the `if(..., 0.12, 0.25)` expression over the
`+`-joined (logical OR in ffmpeg expressions) `between(t,s,e)` conditions,
one per region with padded bounds `max(0, start-buffer)` and `end+buffer`
formatted to two decimals, marked `eval=frame` for per-frame re-evaluation;
region `(1.0, 2.0)` with buffer `0.5` yields the bounds `0.50` and `2.50`. -/
theorem roundHalfEven_intCast (n : ℤ) : roundHalfEven (n : ℚ) = n := by
  unfold roundHalfEven
  rw [Int.floor_intCast]
  norm_num

theorem format2_of_eq_int (x : ℚ) (m : ℤ) (h : x * 100 = (m : ℚ)) :
    format2 x = (if m < 0 then "-".data else []) ++
      natDigits (m.natAbs / 100) ++ ".".data ++ pad2 (m.natAbs % 100) := by
  unfold format2
  rw [h, roundHalfEven_intCast]

theorem format2_lower_ex : format2 (max 0 ((1 : ℚ) - 1/2)) = "0.50".data := by
  have e1 : (1 : ℚ) - 1/2 = 1/2 := by norm_num
  have hx : (max (0 : ℚ) ((1 : ℚ) - 1/2)) * 100 = ((50 : ℤ) : ℚ) := by
    rw [e1, max_eq_right (by norm_num : (0 : ℚ) ≤ 1/2)]
    norm_num
  rw [format2_of_eq_int _ 50 hx]
  decide

theorem format2_upper_ex : format2 ((2 : ℚ) + 1/2) = "2.50".data := by
  have hx : ((2 : ℚ) + 1/2) * 100 = ((250 : ℤ) : ℚ) := by norm_num
  rw [format2_of_eq_int _ 250 hx]
  decide

theorem claim_C4 :
    (∀ buffer : ℚ, build_duck_filter [] buffer = "volume=0.25".data) ∧
    (∀ (regions : List (ℚ × ℚ)) (buffer : ℚ), regions ≠ [] →
      build_duck_filter regions buffer =
        "volume=\x27if(".data ++
          (List.intersperse "+".data (regions.map (duckCondition buffer))).flatten ++
          ", 0.12, 0.25)\x27:eval=frame".data) ∧
    (∀ s e buffer : ℚ, duckCondition buffer (s, e) =
      "between(t,".data ++ format2 (max 0 (s - buffer)) ++ ",".data ++
        format2 (e + buffer) ++ ")".data) ∧
    format2 (max 0 ((1 : ℚ) - 1/2)) = "0.50".data ∧
    format2 ((2 : ℚ) + 1/2) = "2.50".data ∧
    build_duck_filter [((1 : ℚ), (2 : ℚ))] (1/2) =
      "volume=\x27if(between(t,0.50,2.50), 0.12, 0.25)\x27:eval=frame".data := by
  have hcond : duckCondition (1/2) ((1 : ℚ), (2 : ℚ)) = "between(t,0.50,2.50)".data := by
    show "between(t,".data ++ format2 (max 0 ((1 : ℚ) - 1/2)) ++ ",".data ++
      format2 ((2 : ℚ) + 1/2) ++ ")".data = _
    rw [format2_lower_ex, format2_upper_ex]
    decide
  refine ⟨fun buffer => rfl, ?_, fun s e buffer => rfl, format2_lower_ex,
    format2_upper_ex, ?_⟩
  · intro regions buffer hne
    cases regions with
    | nil => exact absurd rfl hne
    | cons r rs => rfl
  · show "volume=\x27if(".data ++
      (List.intersperse "+".data [duckCondition (1/2) ((1 : ℚ), (2 : ℚ))]).flatten ++
      ", 0.12, 0.25)\x27:eval=frame".data = _
    rw [List.intersperse_singleton, hcond]
    decide

/-- Closed witness for C4 at the non-empty hypothesis. -/
theorem claim_C4_witness :
    ([((1 : ℚ), (2 : ℚ))] ≠ ([] : List (ℚ × ℚ))) ∧
    build_duck_filter [((1 : ℚ), (2 : ℚ))] (1/2) =
      "volume=\x27if(".data ++
        (List.intersperse "+".data ([((1 : ℚ), (2 : ℚ))].map (duckCondition (1/2)))).flatten ++
        ", 0.12, 0.25)\x27:eval=frame".data :=
  ⟨by simp, claim_C4.2.1 [((1 : ℚ), (2 : ℚ))] (1/2) (by simp)⟩

end Music

/-! ### Topic discovery deduplication (`src/pipeline/topics/engine.py`) -/

namespace Topics

/-- A topic candidate; only the title and score matter to `discover`'s
deduplication and ranking. -/
structure Cand where
  title : List Char
  score : ℚ
  deriving DecidableEq

/-- Python whitespace characters stripped by `str.strip` (ASCII range). -/
def isSpaceChar (c : Char) : Bool :=
  c = ' ' || c = '\t' || c = '\n' || c = '\r' || c = '\x0b' || c = '\x0c'

/-- Python `s.strip()`: whitespace removed from both ends. -/
def pyStrip (s : List Char) : List Char :=
  ((s.dropWhile isSpaceChar).reverse.dropWhile isSpaceChar).reverse

/-- The deduplication key of `discover`: `t.title.lower().strip()[:50]`
(ASCII lowercasing, as `Char.toLower`). -/
def dedupKey (title : List Char) : List Char :=
  (pyStrip (title.map Char.toLower)).take 50

/-- The `seen`-set loop of `discover`: first occurrence of each key wins,
insertion order preserved. -/
def dedupGo (seen : List (List Char)) : List Cand → List Cand
  | [] => []
  | t :: ts =>
      if dedupKey t.title ∈ seen then dedupGo seen ts
      else t :: dedupGo (dedupKey t.title :: seen) ts

/-- The deduplication pass of `TopicEngine.discover`. -/
def dedup (cands : List Cand) : List Cand := dedupGo [] cands

/-- The key the claim describes: case-insensitive comparison of the first 50
characters of the title (no whitespace stripping). -/
def first50Key (title : List Char) : List Char :=
  (title.take 50).map Char.toLower

/-- Keep exactly the first occurrence within each class of candidates whose
titles compare equal under `key`, preserving insertion order. -/
def keepFirstBy (key : List Char → List Char) : List Cand → List Cand
  | [] => []
  | c :: cs =>
      c :: keepFirstBy key (cs.filter fun t => key t.title != key c.title)
termination_by cs => cs.length
decreasing_by
  simp only [List.length_cons]
  exact Nat.lt_succ_of_le (List.length_filter_le _ _)

/-- The deduplication behaviour the claim describes, word for word: first
occurrence per class of titles equal case-insensitively on their first 50
characters, insertion order preserved. -/
def specFirst50Dedup (cands : List Cand) : List Cand :=
  keepFirstBy first50Key cands

theorem dedupGo_congr_seen (ts : List Cand) (seen seen' : List (List Char))
    (h : ∀ x, x ∈ seen ↔ x ∈ seen') :
    dedupGo seen ts = dedupGo seen' ts := by
  induction ts generalizing seen seen' with
  | nil => rfl
  | cons t ts ih =>
      rw [dedupGo, dedupGo]
      by_cases hm : dedupKey t.title ∈ seen
      · rw [if_pos hm, if_pos ((h _).mp hm)]
        exact ih seen seen' h
      · rw [if_neg hm, if_neg (fun hc => hm ((h _).mpr hc))]
        refine congrArg _ (ih _ _ fun x => ?_)
        simp only [List.mem_cons, h x]

theorem dedupGo_cons_filter (ts : List Cand) (k : List Char) (seen : List (List Char)) :
    dedupGo (k :: seen) ts = dedupGo seen (ts.filter fun t => dedupKey t.title != k) := by
  induction ts generalizing seen with
  | nil => rfl
  | cons t ts ih =>
      by_cases hk : dedupKey t.title = k
      · have h1 : dedupKey t.title ∈ k :: seen := by simp [hk]
        have h2 : ¬((dedupKey t.title != k) = true) := by simp [hk]
        rw [dedupGo, if_pos h1, List.filter_cons, if_neg h2]
        exact ih seen
      · have h2 : (dedupKey t.title != k) = true := by simp [hk]
        by_cases hs : dedupKey t.title ∈ seen
        · have h1 : dedupKey t.title ∈ k :: seen := by simp [hs]
          rw [dedupGo, if_pos h1, List.filter_cons, if_pos h2, dedupGo, if_pos hs]
          exact ih seen
        · have h1 : dedupKey t.title ∉ k :: seen := by simp [hk, hs]
          rw [dedupGo, if_neg h1, List.filter_cons, if_pos h2, dedupGo, if_neg hs]
          refine congrArg _ ?_
          rw [dedupGo_congr_seen ts (dedupKey t.title :: k :: seen)
            (k :: dedupKey t.title :: seen) (by intro x; simp; tauto)]
          exact ih (dedupKey t.title :: seen)

theorem keepFirstBy_sublist (key : List Char → List Char) (cs : List Cand) :
    (keepFirstBy key cs).Sublist cs := by
  induction cs using keepFirstBy.induct key with
  | case1 =>
      rw [keepFirstBy]
  | case2 c cs ih =>
      rw [keepFirstBy]
      exact (ih.trans (List.filter_sublist cs)).cons₂ c

/-- C7 (amended): `discover`'s deduplication keeps exactly the first
occurrence within each class of candidates whose titles are equal after
lowercasing, stripping surrounding whitespace and truncating to 50
characters — not on the raw first 50 characters of the title — and preserves
insertion order (the output is a sublist of the input). -/
theorem claim_C7 (cands : List Cand) :
    dedup cands = keepFirstBy dedupKey cands ∧ (dedup cands).Sublist cands := by
  suffices h : ∀ cs, dedup cs = keepFirstBy dedupKey cs from
    ⟨h cands, (h cands) ▸ keepFirstBy_sublist dedupKey cands⟩
  intro cs
  induction cs using keepFirstBy.induct dedupKey with
  | case1 =>
      rw [keepFirstBy]
      rfl
  | case2 c cs ih =>
      rw [keepFirstBy, ← ih, dedup, dedupGo, if_neg (by simp)]
      exact congrArg _ (dedupGo_cons_filter cs (dedupKey c.title) [])

/-- C7 counterexample: on titles `"abc"` and `"abc "` (trailing space) the
source merges the two candidates (the key is stripped before truncation),
while classes of titles equal case-insensitively on their first 50 characters
keep both; so the claimed description of the deduplication is false on this
input. -/
theorem claim_C7_counterexample :
    dedup [⟨"abc".data, 0⟩, ⟨"abc ".data, 0⟩] = [⟨"abc".data, 0⟩] ∧
    specFirst50Dedup [⟨"abc".data, 0⟩, ⟨"abc ".data, 0⟩] =
      [⟨"abc".data, 0⟩, ⟨"abc ".data, 0⟩] ∧
    dedup [⟨"abc".data, 0⟩, ⟨"abc ".data, 0⟩] ≠
      specFirst50Dedup [⟨"abc".data, 0⟩, ⟨"abc ".data, 0⟩] := by
  have hfil : (([⟨"abc ".data, 0⟩] : List Cand).filter
      fun t => first50Key t.title != first50Key "abc".data) = [⟨"abc ".data, 0⟩] := by
    decide
  have hspec : specFirst50Dedup [⟨"abc".data, 0⟩, ⟨"abc ".data, 0⟩] =
      [⟨"abc".data, 0⟩, ⟨"abc ".data, 0⟩] := by
    rw [specFirst50Dedup, keepFirstBy, hfil, keepFirstBy, List.filter_nil, keepFirstBy]
  refine ⟨by decide, hspec, ?_⟩
  rw [hspec]
  decide

end Topics

/-! ### The produce orchestrator (`cmd_produce` in `src/pipeline/__main__.py`) -/

namespace Produce

open State

/-- `"_pipeline_state"`, the draft key holding the embedded Stage Ledger. -/
def psKey : List Char := "_pipeline_state".data

/-- The produce-command stages, in the order `cmd_produce` runs them. -/
def produceStages : List (List Char) :=
  ["broll".data, "voiceover".data, "captions".data, "music".data, "assemble".data]

/-- `PipelineState.__init__`: ensure the draft has a `_pipeline_state` dict. -/
def initDraft (draft : JDict) : JDict :=
  match jGet draft psKey with
  | none => jSet draft psKey (.obj [])
  | some _ => draft

/-- The embedded ledger of a draft (`self.draft["_pipeline_state"]`). -/
def stateOf (draft : JDict) : JDict :=
  match jGet draft psKey with
  | some (.obj kvs) => kvs
  | _ => []

/-- Write back the embedded ledger of a draft. -/
def setState (draft : JDict) (st : JDict) : JDict := jSet draft psKey (.obj st)

/-- `complete_stage` at draft level. -/
def completeD (draft : JDict) (stage ts : List Char) (arts : Option JDict) : JDict :=
  setState draft (complete_stage (stateOf draft) stage ts arts)

/-- Observable orchestrator events, in program order: a ledger stage
transition (a `complete_stage` call) and a full-record write
(`state.save(draft_path)`, carrying the whole record it writes). -/
inductive PEvent where
  | trans (stage : List Char) : PEvent
  | save (draft : JDict) : PEvent

/-- Is this event a record write? -/
def isSave : PEvent → Bool
  | .save _ => true
  | _ => false

/-- The per-stage body of `cmd_produce`: for each stage in order, when
`force` is set or the stage is not done, call its collaborator (`collab`
gives each stage's produced artifacts, or the exception it raises); on
success mark the stage done; on exception propagate immediately — the
source has no try/except around the stage calls, so no `fail_stage` and no
save happen on that path.  Skipped stages only read artifacts back, which
does not change the ledger.  Returns the outcome, the in-memory draft at
exit, and the events in order. -/
def runStages (collab : List Char → Except (List Char) JDict)
    (ts : List Char → List Char) (force : Bool) :
    List (List Char) → JDict → Except (List Char) Unit × JDict × List PEvent
  | [], draft => (.ok (), draft, [])
  | stage :: rest, draft =>
      if force || !(is_done (stateOf draft) stage) then
        match collab stage with
        | .ok arts =>
            match runStages collab ts force rest (completeD draft stage (ts stage) (some arts)) with
            | (res, d2, evs2) => (res, d2, .trans stage :: evs2)
        | .error e => (.error e, draft, [])
      else runStages collab ts force rest draft

/-- `cmd_produce`: load the draft, run the five stages, then write the whole
record once at the end (the source's single `state.save(draft_path)`; the
payload-field writes just before it do not touch the ledger and are
elided). -/
def cmd_produce (collab : List Char → Except (List Char) JDict)
    (ts : List Char → List Char) (force : Bool) (draft0 : JDict) :
    Except (List Char) Unit × JDict × List PEvent :=
  match runStages collab ts force produceStages (initDraft draft0) with
  | (.ok (), d, evs) => (.ok (), d, evs ++ [.save d])
  | (.error e, d, evs) => (.error e, d, evs)

/-- The claim C6 describes, as a scan over the event trace: every stage
transition is followed by a record write before any later transition. -/
def savedBetweenTrans : Bool → List PEvent → Bool
  | _, [] => true
  | pending, .trans _ :: rest => if pending then false else savedBetweenTrans true rest
  | _, .save _ :: rest => savedBetweenTrans false rest

theorem stateOf_setState (draft : JDict) (st : JDict) :
    stateOf (setState draft st) = st := by
  unfold stateOf setState
  rw [jGet_jSet_self]

theorem runStages_no_save (collab : List Char → Except (List Char) JDict)
    (ts : List Char → List Char) (force : Bool) (stages : List (List Char)) :
    ∀ draft, ((runStages collab ts force stages draft).2.2.filter isSave) = [] := by
  induction stages with
  | nil => intro draft; rfl
  | cons stage rest ih =>
      intro draft
      rw [runStages]
      by_cases hc : (force || !(is_done (stateOf draft) stage)) = true
      · rw [if_pos hc]
        cases hcol : collab stage with
        | ok arts =>
            dsimp only
            cases hres : runStages collab ts force rest
              (completeD draft stage (ts stage) (some arts)) with
            | mk res pr =>
                cases pr with
                | mk d2 evs2 =>
                    have hflt := ih (completeD draft stage (ts stage) (some arts))
                    rw [hres] at hflt
                    show (PEvent.trans stage :: evs2).filter isSave = []
                    rw [List.filter_cons, if_neg (fun hcon => Bool.noConfusion hcon)]
                    exact hflt
        | error e => rfl
      · rw [if_neg hc]
        exact ih draft

/-- If `runStages` raises, the raising stage's ledger entry is untouched (on
a stage list without duplicates), and the error is the collaborator's. -/
theorem runStages_error_spec (collab : List Char → Except (List Char) JDict)
    (ts : List Char → List Char) (force : Bool) :
    ∀ (stages : List (List Char)), stages.Nodup →
    ∀ draft e d evs, runStages collab ts force stages draft = (.error e, d, evs) →
      ∃ stage ∈ stages, collab stage = .error e ∧
        jGet (stateOf d) stage = jGet (stateOf draft) stage := by
  intro stages
  induction stages with
  | nil =>
      intro _ draft e d evs h
      rw [runStages] at h
      simp at h
  | cons stage rest ih =>
      intro hnd draft e d evs h
      rw [runStages] at h
      by_cases hc : (force || !(is_done (stateOf draft) stage)) = true
      · rw [if_pos hc] at h
        cases hcol : collab stage with
        | ok arts =>
            rw [hcol] at h
            dsimp only at h
            cases hres : runStages collab ts force rest
              (completeD draft stage (ts stage) (some arts)) with
            | mk res pr =>
            cases pr with
            | mk d2 evs2 =>
            rw [hres] at h
            simp only [Prod.mk.injEq] at h
            obtain ⟨h1, h2, _⟩ := h
            rw [h1, h2] at hres
            obtain ⟨s, hs, hcs, hent⟩ := ih (List.Nodup.of_cons hnd) _ e d evs2 hres
            refine ⟨s, by simp [hs], hcs, ?_⟩
            rw [hent, completeD, stateOf_setState, complete_stage]
            have hne : stage ≠ s := by
              intro hcon
              subst hcon
              exact (List.nodup_cons.mp hnd).1 hs
            exact jGet_jSet_ne _ _ _ _ hne
        | error e0 =>
            rw [hcol] at h
            simp only [Prod.mk.injEq, Except.error.injEq] at h
            obtain ⟨h1, h2, _⟩ := h
            refine ⟨stage, by simp, ?_, by rw [← h2]⟩
            rw [hcol, h1]
      · rw [if_neg hc] at h
        obtain ⟨s, hs, hcs, hent⟩ := ih (List.Nodup.of_cons hnd) draft e d evs h
        exact ⟨s, by simp [hs], hcs, hent⟩

theorem is_failed_jSet_ne (st : JDict) (k0 k : List Char) (v : Json) (h : k0 ≠ k) :
    is_failed (jSet st k0 v) k = is_failed st k := by
  unfold is_failed
  rw [entryOf_jSet_ne _ _ _ _ h]

theorem is_failed_complete_self (st : JDict) (stage ts : List Char)
    (artifacts : Option JDict) :
    is_failed (complete_stage st stage ts artifacts) stage = false := by
  unfold is_failed complete_stage
  rw [entryOf_jSet_self]
  cases artifacts with
  | none => simp [completedEntry, jField, jGet]
  | some a => cases a <;> simp [completedEntry, jField, jGet]

/-- `cmd_produce` never introduces a failed entry: it calls only
`complete_stage`, never `fail_stage`. -/
theorem runStages_no_new_failed (collab : List Char → Except (List Char) JDict)
    (ts : List Char → List Char) (force : Bool) :
    ∀ (stages : List (List Char)) (draft : JDict) (s : List Char),
      is_failed (stateOf (runStages collab ts force stages draft).2.1) s = true →
      is_failed (stateOf draft) s = true := by
  intro stages
  induction stages with
  | nil => intro draft s h; exact h
  | cons stage rest ih =>
      intro draft s h
      rw [runStages] at h
      by_cases hc : (force || !(is_done (stateOf draft) stage)) = true
      · rw [if_pos hc] at h
        cases hcol : collab stage with
        | ok arts =>
            rw [hcol] at h
            dsimp only at h
            cases hres : runStages collab ts force rest
              (completeD draft stage (ts stage) (some arts)) with
            | mk res pr =>
            cases pr with
            | mk d2 evs2 =>
            rw [hres] at h
            have h3 := ih (completeD draft stage (ts stage) (some arts)) s (by rw [hres]; exact h)
            rw [completeD, stateOf_setState] at h3
            by_cases he : stage = s
            · subst he
              rw [is_failed_complete_self] at h3
              exact absurd h3 (by decide)
            · rw [complete_stage, is_failed_jSet_ne _ _ _ _ he] at h3
              exact h3
        | error e0 =>
            rw [hcol] at h
            exact h
      · rw [if_neg hc] at h
        exact ih draft s h

/-- C5 (amended): when a produce-stage collaborator raises, the orchestrator
does NOT record the stage as failed — `cmd_produce` has no try/except and
never calls `fail_stage`.  The exception propagates with the raising stage's
ledger entry unchanged, no stage newly marked failed, and no record write
performed. -/
theorem claim_C5 (collab : List Char → Except (List Char) JDict)
    (ts : List Char → List Char) (force : Bool) (draft0 : JDict) :
    ∀ e d evs, cmd_produce collab ts force draft0 = (.error e, d, evs) →
      (∃ stage ∈ produceStages, collab stage = .error e ∧
        jGet (stateOf d) stage = jGet (stateOf (initDraft draft0)) stage) ∧
      evs.filter isSave = [] ∧
      (∀ stage, is_failed (stateOf d) stage = true →
        is_failed (stateOf (initDraft draft0)) stage = true) := by
  intro e d evs h
  rw [cmd_produce] at h
  cases hr : runStages collab ts force produceStages (initDraft draft0) with
  | mk res pr =>
  cases pr with
  | mk d2 evs2 =>
  rw [hr] at h
  cases res with
  | ok u =>
      cases u
      simp at h
  | error e0 =>
      dsimp only at h
      simp only [Prod.mk.injEq, Except.error.injEq] at h
      obtain ⟨h1, h2, h3⟩ := h
      subst h1
      subst h2
      subst h3
      refine ⟨?_, ?_, ?_⟩
      · exact runStages_error_spec collab ts force produceStages (by decide)
          (initDraft draft0) e0 d2 evs2 hr
      · have hns := runStages_no_save collab ts force produceStages (initDraft draft0)
        rw [hr] at hns
        exact hns
      · intro stage hf
        refine runStages_no_new_failed collab ts force produceStages (initDraft draft0) stage ?_
        rw [hr]
        exact hf

/-- C5 counterexample: with a broll collaborator that raises on a fresh
draft, `cmd_produce` propagates the exception but the ledger does NOT record
`broll` as failed (its entry is still absent), contradicting the claim that
the stage is recorded failed before propagation. -/
theorem claim_C5_counterexample :
    cmd_produce (fun s => if s = "broll".data then .error "boom".data else .ok [])
      (fun _ => "t".data) false [] =
      (.error "boom".data, [(psKey, Json.obj [])], []) ∧
    is_failed (stateOf [(psKey, Json.obj [])]) "broll".data = false ∧
    jGet (stateOf [(psKey, Json.obj [])]) "broll".data = none :=
  ⟨rfl, rfl, rfl⟩

/-- Closed witness for C5 at the concrete failing run. -/
theorem claim_C5_witness :
    cmd_produce (fun s => if s = "broll".data then .error "boom".data else .ok [])
      (fun _ => "t".data) false [] =
      (.error "boom".data, [(psKey, Json.obj [])], []) ∧
    (([] : List PEvent).filter isSave = []) :=
  ⟨rfl, (claim_C5 (fun s => if s = "broll".data then .error "boom".data else .ok [])
    (fun _ => "t".data) false [] "boom".data [(psKey, Json.obj [])] [] rfl).2.1⟩

theorem getLast?_append_singleton {α : Type} (l : List α) (a : α) :
    (l ++ [a]).getLast? = some a := by
  rw [List.getLast?_concat]

/-- C6 (amended): `cmd_produce` persists the record exactly once, at the end
of a successful run — the single final `state.save` — and a failing run
persists nothing; stage transitions are NOT followed by a write before the
next stage begins. -/
theorem claim_C6 (collab : List Char → Except (List Char) JDict)
    (ts : List Char → List Char) (force : Bool) (draft0 : JDict) :
    (∀ d evs, cmd_produce collab ts force draft0 = (.ok (), d, evs) →
      evs.filter isSave = [.save d] ∧ evs.getLast? = some (.save d)) ∧
    (∀ e d evs, cmd_produce collab ts force draft0 = (.error e, d, evs) →
      evs.filter isSave = []) := by
  constructor
  · intro d evs h
    rw [cmd_produce] at h
    cases hr : runStages collab ts force produceStages (initDraft draft0) with
    | mk res pr =>
    cases pr with
    | mk d2 evs2 =>
    rw [hr] at h
    cases res with
    | error e0 =>
        dsimp only at h
        simp at h
    | ok u =>
        cases u
        dsimp only at h
        simp only [Prod.mk.injEq] at h
        obtain ⟨_, h2, h3⟩ := h
        subst h2
        subst h3
        have hns := runStages_no_save collab ts force produceStages (initDraft draft0)
        rw [hr] at hns
        have hns2 : evs2.filter isSave = [] := hns
        constructor
        · rw [List.filter_append, hns2]
          rfl
        · exact getLast?_append_singleton ..
  · intro e d evs h
    rw [cmd_produce] at h
    cases hr : runStages collab ts force produceStages (initDraft draft0) with
    | mk res pr =>
    cases pr with
    | mk d2 evs2 =>
    rw [hr] at h
    cases res with
    | ok u =>
        cases u
        simp at h
    | error e0 =>
        dsimp only at h
        simp only [Prod.mk.injEq, Except.error.injEq] at h
        obtain ⟨_, _, h3⟩ := h
        subst h3
        have hns := runStages_no_save collab ts force produceStages (initDraft draft0)
        rw [hr] at hns
        exact hns

/-- C6 counterexample: in a full forced run with five succeeding stages the
event trace is five transitions followed by ONE final save, so it is false
that after every stage transition the record is written before the next
stage begins (`savedBetweenTrans` scans the trace for exactly that
property). -/
theorem claim_C6_counterexample :
    savedBetweenTrans false
      (cmd_produce (fun _ => .ok []) (fun _ => "t".data) true []).2.2 = false ∧
    ((cmd_produce (fun _ => .ok []) (fun _ => "t".data) true []).2.2.filter isSave).length = 1 ∧
    (cmd_produce (fun _ => .ok []) (fun _ => "t".data) true []).2.2.length = 6 :=
  ⟨rfl, rfl, rfl⟩

/-- The done entry written by each stage of the concrete witness run. -/
def doneEntryT : Json :=
  Json.obj [("status".data, Json.str "done".data), ("timestamp".data, Json.str "t".data)]

/-- The record at the end of the concrete witness run. -/
def producedDraftT : JDict :=
  [(psKey, Json.obj [("broll".data, doneEntryT), ("voiceover".data, doneEntryT),
    ("captions".data, doneEntryT), ("music".data, doneEntryT),
    ("assemble".data, doneEntryT)])]

/-- The event trace of the concrete witness run. -/
def producedEventsT : List PEvent :=
  [.trans "broll".data, .trans "voiceover".data, .trans "captions".data,
    .trans "music".data, .trans "assemble".data, .save producedDraftT]

/-- Closed witness for C6 at the concrete successful run. -/
theorem claim_C6_witness :
    cmd_produce (fun _ => .ok []) (fun _ => "t".data) true [] =
      (.ok (), producedDraftT, producedEventsT) ∧
    producedEventsT.filter isSave = [.save producedDraftT] :=
  ⟨rfl, ((claim_C6 (fun _ => .ok []) (fun _ => "t".data) true []).1
    producedDraftT producedEventsT rfl).1⟩

end Produce

/-! ### Job-record persistence (`PipelineState.save` / `json.loads`)

`save` writes `json.dumps(self.draft, indent=2, ensure_ascii=False)`;
`cmd_produce` reads it back with `json.loads`.  The serializer below mirrors
Python's pretty printer for the embedded `Json` type (no float values; with
`ensure_ascii=False` only `"` and `\` need escaping for strings free of
control characters, which well-formedness (`wfV`) guarantees).  The parser is
a recursive-descent reader with explicit fuel, following `json.loads` on the
grammar it is fed: literals, integers, strings with the standard short
escapes, arrays and objects with interspersed whitespace.  Objects with
repeated keys never arise from `save` (Python dicts cannot hold them);
`wfV` rules them out. -/

namespace Serial

open State

/-- `ord 123`, the opening curly bracket. -/
def lbrace : Char := Char.ofNat 123

/-- `ord 125`, the closing curly bracket. -/
def rbrace : Char := Char.ofNat 125

/-- `indent` spaces. -/
def spaces (n : Nat) : List Char := List.replicate n ' '

/-- JSON string escaping as `json.dumps(..., ensure_ascii=False)` performs it
on strings without control characters: only `"` and `\` are escaped. -/
def escapeChar (c : Char) : List Char :=
  if c = '"' then ['\\', '"']
  else if c = '\\' then ['\\', '\\']
  else [c]

/-- Escape a whole string body. -/
def escapeString (s : List Char) : List Char := (s.map escapeChar).flatten

/-- A quoted, escaped JSON string token. -/
def quoteStr (s : List Char) : List Char := '"' :: (escapeString s ++ ['"'])

/-- Python `str` of an integer. -/
def intDigits : Int → List Char
  | .ofNat m => natDigits m
  | .negSucc m => '-' :: natDigits (m + 1)

mutual

/-- `json.dumps(v, indent=2, ensure_ascii=False)` at indentation level
`ind`: the exact text Python emits for the embedded value. -/
def dumpsV (ind : Nat) : Json → List Char
  | .null => 'n' :: 'u' :: 'l' :: 'l' :: []
  | .bool true => 't' :: 'r' :: 'u' :: 'e' :: []
  | .bool false => 'f' :: 'a' :: 'l' :: 's' :: 'e' :: []
  | .int n => intDigits n
  | .str s => quoteStr s
  | .arr [] => '[' :: ']' :: []
  | .arr (x :: xs) =>
      '[' :: '\n' :: (spaces (ind + 2) ++ dumpsV (ind + 2) x ++ dumpsArrItems ind xs ++
        '\n' :: (spaces ind ++ [']']))
  | .obj [] => lbrace :: rbrace :: []
  | .obj ((k, v) :: kvs) =>
      lbrace :: '\n' :: (spaces (ind + 2) ++ quoteStr k ++ ':' :: ' ' :: (dumpsV (ind + 2) v ++
        dumpsObjItems ind kvs ++ '\n' :: (spaces ind ++ [rbrace])))

/-- The second and later array items, each preceded by `",\n"` and the
deeper indentation. -/
def dumpsArrItems (ind : Nat) : List Json → List Char
  | [] => []
  | x :: xs => ',' :: '\n' :: (spaces (ind + 2) ++ dumpsV (ind + 2) x ++ dumpsArrItems ind xs)

/-- The second and later object members. -/
def dumpsObjItems (ind : Nat) : JDict → List Char
  | [] => []
  | (k, v) :: kvs => ',' :: '\n' :: (spaces (ind + 2) ++ quoteStr k ++ ':' :: ' ' ::
      (dumpsV (ind + 2) v ++ dumpsObjItems ind kvs))

end

mutual

/-- Well-formedness: every string is free of control characters and every
object has distinct keys — exactly the values Python dicts/strs of this
shape can denote and `save` can emit. -/
def wfV : Json → Bool
  | .null => true
  | .bool _ => true
  | .int _ => true
  | .str s => s.all fun c => 32 ≤ c.toNat
  | .arr xs => wfArr xs
  | .obj kvs =>
      ((kvs.map Prod.fst).Nodup : Bool) && wfObj kvs

/-- Well-formedness of array elements. -/
def wfArr : List Json → Bool
  | [] => true
  | x :: xs => wfV x && wfArr xs

/-- Well-formedness of object members. -/
def wfObj : JDict → Bool
  | [] => true
  | (k, v) :: kvs => (k.all fun c => 32 ≤ c.toNat) && wfV v && wfObj kvs

end

mutual

/-- Fuel bound for the parser on a value. -/
def sV : Json → Nat
  | .arr xs => 1 + sE xs
  | .obj kvs => 1 + sM kvs
  | _ => 1

/-- Fuel bound for an array-element sequence. -/
def sE : List Json → Nat
  | [] => 0
  | x :: xs => 1 + sV x + sE xs

/-- Fuel bound for an object-member sequence. -/
def sM : JDict → Nat
  | [] => 0
  | (_, v) :: kvs => 1 + sV v + sM kvs

end

/-- JSON insignificant whitespace (`json.decoder`: space, tab, newline,
carriage return). -/
def isWsChar (c : Char) : Bool :=
  c = ' ' || c = '\t' || c = '\n' || c = '\r'

/-- Skip leading whitespace. -/
def skipWs : List Char → List Char
  | [] => []
  | c :: cs => if isWsChar c then skipWs cs else c :: cs

/-- The value of a decimal digit sequence, most significant first. -/
def digitsToNat (ds : List Char) : Nat :=
  ds.foldl (fun acc c => 10 * acc + (c.toNat - 48)) 0

/-- Span of leading decimal digits. -/
def takeDigits : List Char → List Char × List Char
  | [] => ([], [])
  | c :: cs =>
      if c.isDigit then
        match takeDigits cs with
        | (ds, rest) => (c :: ds, rest)
      else ([], c :: cs)

/-- Parse a JSON integer (optional minus, then digits). -/
def parseInt (cs : List Char) : Option (Int × List Char) :=
  match cs with
  | [] => none
  | c :: cs2 =>
      if c = '-' then
        match takeDigits cs2 with
        | ([], _) => none
        | (ds, rest) => some (-(digitsToNat ds : Int), rest)
      else
        match takeDigits (c :: cs2) with
        | ([], _) => none
        | (ds, rest) => some ((digitsToNat ds : Int), rest)

/-- The standard JSON short escapes (`\uXXXX` is omitted: `dumps` with
`ensure_ascii=False` never emits it for control-free strings). -/
def unescape (c : Char) : Option Char :=
  if c = '"' then some '"'
  else if c = '\\' then some '\\'
  else if c = '/' then some '/'
  else if c = 'n' then some '\n'
  else if c = 't' then some '\t'
  else if c = 'r' then some '\r'
  else if c = 'b' then some (Char.ofNat 8)
  else if c = 'f' then some (Char.ofNat 12)
  else none

/-- Parse a string body after the opening quote, up to and past the closing
quote; raw control characters are rejected as in strict `json.loads`. -/
def parseStringBody : List Char → Option (List Char × List Char)
  | [] => none
  | c :: cs =>
      if c = '"' then some ([], cs)
      else if c = '\\' then
        match cs with
        | [] => none
        | e :: cs2 =>
            match unescape e with
            | some u =>
                match parseStringBody cs2 with
                | some (s, rest) => some (u :: s, rest)
                | none => none
            | none => none
      else if c.toNat < 32 then none
      else
        match parseStringBody cs with
        | some (s, rest) => some (c :: s, rest)
        | none => none

mutual

/-- Recursive-descent JSON value parser with fuel (the shape of
`json.loads` on the grammar `save` emits). -/
def parseVal : Nat → List Char → Option (Json × List Char)
  | 0, _ => none
  | fuel + 1, cs =>
      match skipWs cs with
      | 'n' :: 'u' :: 'l' :: 'l' :: rest => some (.null, rest)
      | 't' :: 'r' :: 'u' :: 'e' :: rest => some (.bool true, rest)
      | 'f' :: 'a' :: 'l' :: 's' :: 'e' :: rest => some (.bool false, rest)
      | '"' :: rest =>
          match parseStringBody rest with
          | some (s, rest2) => some (.str s, rest2)
          | none => none
      | '[' :: rest =>
          match skipWs rest with
          | ']' :: rest2 => some (.arr [], rest2)
          | cs2 =>
              match parseElems fuel cs2 with
              | some (xs, rest2) => some (.arr xs, rest2)
              | none => none
      | c :: rest =>
          if c = lbrace then
            match skipWs rest with
            | c2 :: rest2 =>
                if c2 = rbrace then some (.obj [], rest2)
                else
                  match parseMembers fuel (c2 :: rest2) with
                  | some (kvs, rest3) => some (.obj kvs, rest3)
                  | none => none
            | [] => none
          else if c = '-' || c.isDigit then
            match parseInt (c :: rest) with
            | some (n, rest2) => some (.int n, rest2)
            | none => none
          else none
      | [] => none

/-- Parse one or more comma-separated array elements up to the closing
bracket. -/
def parseElems : Nat → List Char → Option (List Json × List Char)
  | 0, _ => none
  | fuel + 1, cs =>
      match parseVal fuel cs with
      | some (v, rest) =>
          match skipWs rest with
          | ',' :: rest2 =>
              match parseElems fuel rest2 with
              | some (vs, rest3) => some (v :: vs, rest3)
              | none => none
          | ']' :: rest2 => some ([v], rest2)
          | _ => none
      | none => none

/-- Parse one or more comma-separated object members up to the closing
brace. -/
def parseMembers : Nat → List Char → Option (JDict × List Char)
  | 0, _ => none
  | fuel + 1, cs =>
      match skipWs cs with
      | '"' :: rest =>
          match parseStringBody rest with
          | some (k, rest2) =>
              match skipWs rest2 with
              | ':' :: rest3 =>
                  match parseVal fuel rest3 with
                  | some (v, rest4) =>
                      match skipWs rest4 with
                      | ',' :: rest5 =>
                          match parseMembers fuel rest5 with
                          | some (kvs, rest6) => some ((k, v) :: kvs, rest6)
                          | none => none
                      | c5 :: rest5 =>
                          if c5 = rbrace then some ([(k, v)], rest5) else none
                      | [] => none
                  | none => none
              | _ => none
          | none => none
      | _ => none

end

/-- `json.dumps(draft, indent=2, ensure_ascii=False)` — the text
`PipelineState.save` writes for the whole record. -/
def saveString (draft : JDict) : List Char := dumpsV 0 (.obj draft)

/-- `json.loads`: parse one value, allow only trailing whitespace.  The fuel
`length + 1` is sufficient for any text `save` produces (proved below). -/
def loads (cs : List Char) : Option Json :=
  match parseVal (cs.length + 1) cs with
  | some (v, rest) => if skipWs rest = [] then some v else none
  | none => none

/-! #### Digit and token lemmas -/

/-- Is the head (if any) a decimal digit?  Used to state that the text after
a serialized integer cannot extend it. -/
def headNotDigit : List Char → Bool
  | [] => true
  | c :: _ => !c.isDigit

theorem digitChar_toNat (d : Nat) (h : d < 10) : (digitChar d).toNat = 48 + d := by
  interval_cases d <;> rfl

theorem digitChar_isDigit (d : Nat) (h : d < 10) : (digitChar d).isDigit = true := by
  interval_cases d <;> decide

theorem digitsToNat_append_digit (a : List Char) (c : Char) :
    digitsToNat (a ++ [c]) = 10 * digitsToNat a + (c.toNat - 48) := by
  unfold digitsToNat
  rw [List.foldl_append]
  rfl

theorem natDigitsAux_spec : ∀ fuel m, m < fuel →
    (natDigitsAux fuel m).all Char.isDigit = true ∧
    digitsToNat (natDigitsAux fuel m) = m ∧ natDigitsAux fuel m ≠ [] := by
  intro fuel
  induction fuel with
  | zero => intro m h; omega
  | succ f ih =>
      intro m h
      rw [natDigitsAux]
      by_cases hm : m < 10
      · rw [if_pos hm]
        refine ⟨by simp [digitChar_isDigit m hm], ?_, by simp⟩
        show digitsToNat [digitChar m] = m
        unfold digitsToNat
        simp only [List.foldl_cons, List.foldl_nil]
        rw [digitChar_toNat m hm]
        omega
      · rw [if_neg hm]
        have hdiv : m / 10 < f := by
          have := Nat.div_lt_self (show 0 < m by omega) (show 1 < 10 by omega)
          omega
        obtain ⟨ha, hb, _⟩ := ih (m / 10) hdiv
        have hmod : m % 10 < 10 := Nat.mod_lt _ (by omega)
        refine ⟨?_, ?_, by simp⟩
        · rw [List.all_append]
          simp [ha, digitChar_isDigit (m % 10) hmod]
        · rw [digitsToNat_append_digit, hb, digitChar_toNat (m % 10) hmod]
          omega

theorem natDigits_spec (m : Nat) :
    (natDigits m).all Char.isDigit = true ∧
    digitsToNat (natDigits m) = m ∧ natDigits m ≠ [] := by
  unfold natDigits
  exact natDigitsAux_spec (m + 1) m (by omega)

theorem takeDigits_append (ds rest : List Char) (hds : ds.all Char.isDigit = true)
    (hrest : headNotDigit rest = true) : takeDigits (ds ++ rest) = (ds, rest) := by
  induction ds with
  | nil =>
      rw [List.nil_append]
      cases rest with
      | nil => rfl
      | cons c cs =>
          have hc : c.isDigit = false := by
            simpa [headNotDigit] using hrest
          rw [takeDigits, if_neg (by simp [hc])]
  | cons d ds ih =>
      simp only [List.all_cons, Bool.and_eq_true] at hds
      rw [List.cons_append, takeDigits, if_pos hds.1, ih hds.2]

theorem isDigit_ne_minus (c : Char) (h : c.isDigit = true) : ¬ c = '-' := by
  intro heq
  subst heq
  exact absurd h (by decide)

theorem parseInt_intDigits (n : Int) (rest : List Char)
    (hrest : headNotDigit rest = true) :
    parseInt (intDigits n ++ rest) = some (n, rest) := by
  cases n with
  | ofNat m =>
      obtain ⟨ha, hb, hc⟩ := natDigits_spec m
      show parseInt (natDigits m ++ rest) = some (Int.ofNat m, rest)
      cases hnd : natDigits m with
      | nil => exact absurd hnd hc
      | cons c ds =>
          rw [hnd] at ha hb
          have hcd : c.isDigit = true := by
            simp only [List.all_cons, Bool.and_eq_true] at ha
            exact ha.1
          rw [List.cons_append, parseInt, if_neg (isDigit_ne_minus c hcd)]
          rw [← List.cons_append, takeDigits_append (c :: ds) rest ha hrest]
          show some ((digitsToNat (c :: ds) : Int), rest) = some (Int.ofNat m, rest)
          rw [hb]
          rfl
  | negSucc m =>
      obtain ⟨ha, hb, hc⟩ := natDigits_spec (m + 1)
      show parseInt ('-' :: natDigits (m + 1) ++ rest) = some (Int.negSucc m, rest)
      rw [List.cons_append, parseInt, if_pos rfl,
        takeDigits_append (natDigits (m + 1)) rest ha hrest]
      cases hnd : natDigits (m + 1) with
      | nil => exact absurd hnd hc
      | cons c ds =>
          rw [hnd] at hb
          show some (-(digitsToNat (c :: ds) : Int), rest) = some (Int.negSucc m, rest)
          rw [hb]
          rfl

/-! #### Whitespace lemmas -/

theorem skipWs_cons_not_ws (c : Char) (cs : List Char) (h : isWsChar c = false) :
    skipWs (c :: cs) = c :: cs := by
  rw [skipWs, if_neg (by simp [h])]

theorem skipWs_ws_front (pre : List Char) (h : pre.all isWsChar = true) (cs : List Char) :
    skipWs (pre ++ cs) = skipWs cs := by
  induction pre with
  | nil => rfl
  | cons p ps ih =>
      simp only [List.all_cons, Bool.and_eq_true] at h
      rw [List.cons_append, skipWs, if_pos h.1, ih h.2]

theorem spaces_all_ws (n : Nat) : (spaces n).all isWsChar = true := by
  unfold spaces
  induction n with
  | zero => rfl
  | succ m ih => rw [List.replicate_succ, List.all_cons, ih]; rfl

theorem isDigit_not_ws (c : Char) (h : c.isDigit = true) : isWsChar c = false := by
  by_cases h1 : c = ' '
  · subst h1; exact absurd h (by decide)
  by_cases h2 : c = '\t'
  · subst h2; exact absurd h (by decide)
  by_cases h3 : c = '\n'
  · subst h3; exact absurd h (by decide)
  by_cases h4 : c = '\r'
  · subst h4; exact absurd h (by decide)
  simp [isWsChar, h1, h2, h3, h4]

/-! #### String round trip -/

theorem parseStringBody_quote (cs : List Char) :
    parseStringBody ('"' :: cs) = some ([], cs) := by
  rw [parseStringBody.eq_def]
  dsimp only
  rw [if_pos rfl]

theorem parseStringBody_esc (e u : Char) (cs : List Char) (hu : unescape e = some u) :
    parseStringBody ('\\' :: e :: cs) =
      match parseStringBody cs with
      | some (s, r) => some (u :: s, r)
      | none => none := by
  rw [parseStringBody.eq_def]
  dsimp only
  rw [if_neg (by decide), if_pos rfl, hu]

theorem parseStringBody_plain (c : Char) (cs : List Char) (h1 : ¬ c = '"')
    (h2 : ¬ c = '\\') (h3 : ¬ c.toNat < 32) :
    parseStringBody (c :: cs) =
      match parseStringBody cs with
      | some (s, r) => some (c :: s, r)
      | none => none := by
  rw [parseStringBody.eq_def]
  dsimp only
  rw [if_neg h1, if_neg h2, if_neg h3]

theorem parseStringBody_escape (s : List Char)
    (hs : (s.all fun c => 32 ≤ c.toNat) = true) (rest : List Char) :
    parseStringBody (escapeString s ++ ('"' :: rest)) = some (s, rest) := by
  induction s with
  | nil => exact parseStringBody_quote rest
  | cons c cs ih =>
      simp only [List.all_cons, Bool.and_eq_true] at hs
      have hc32 : 32 ≤ c.toNat := by simpa using hs.1
      have ihr := ih hs.2
      show parseStringBody ((escapeChar c ++ escapeString cs) ++ ('"' :: rest)) = _
      by_cases h1 : c = '"'
      · subst h1
        show parseStringBody ('\\' :: '"' :: (escapeString cs ++ ('"' :: rest))) = _
        rw [parseStringBody_esc '"' '"' _ rfl, ihr]
      · by_cases h2 : c = '\\'
        · subst h2
          show parseStringBody ('\\' :: '\\' :: (escapeString cs ++ ('"' :: rest))) = _
          rw [parseStringBody_esc '\\' '\\' _ rfl, ihr]
        · have hec : escapeChar c = [c] := by
            rw [escapeChar, if_neg h1, if_neg h2]
          rw [hec, List.cons_append, List.nil_append, List.cons_append]
          rw [parseStringBody_plain c (escapeString cs ++ ('"' :: rest)) h1 h2 (by omega)]
          rw [ihr]

/-! #### Character classification and parser plumbing -/

theorem char_eq_of_toNat {c d : Char} (h : c.toNat = d.toNat) : c = d :=
  Char.ext (UInt32.ext h)

theorem isDigit_bounds (c : Char) (h : c.isDigit = true) :
    48 ≤ c.toNat ∧ c.toNat ≤ 57 := by
  simp only [Char.isDigit, Bool.and_eq_true, decide_eq_true_eq] at h
  exact h

theorem isDigit_cases (c : Char) (h : c.isDigit = true) :
    c = '0' ∨ c = '1' ∨ c = '2' ∨ c = '3' ∨ c = '4' ∨
    c = '5' ∨ c = '6' ∨ c = '7' ∨ c = '8' ∨ c = '9' := by
  obtain ⟨h1, h2⟩ := isDigit_bounds c h
  have hn : c.toNat = 48 ∨ c.toNat = 49 ∨ c.toNat = 50 ∨ c.toNat = 51 ∨ c.toNat = 52 ∨
      c.toNat = 53 ∨ c.toNat = 54 ∨ c.toNat = 55 ∨ c.toNat = 56 ∨ c.toNat = 57 := by
    omega
  rcases hn with h | h | h | h | h | h | h | h | h | h
  · exact Or.inl (char_eq_of_toNat h)
  · exact Or.inr (Or.inl (char_eq_of_toNat h))
  · exact Or.inr (Or.inr (Or.inl (char_eq_of_toNat h)))
  · exact Or.inr (Or.inr (Or.inr (Or.inl (char_eq_of_toNat h))))
  · exact Or.inr (Or.inr (Or.inr (Or.inr (Or.inl (char_eq_of_toNat h)))))
  · exact Or.inr (Or.inr (Or.inr (Or.inr (Or.inr (Or.inl (char_eq_of_toNat h))))))
  · exact Or.inr (Or.inr (Or.inr (Or.inr (Or.inr (Or.inr (Or.inl (char_eq_of_toNat h)))))))
  · exact Or.inr (Or.inr (Or.inr (Or.inr (Or.inr (Or.inr (Or.inr
      (Or.inl (char_eq_of_toNat h))))))))
  · exact Or.inr (Or.inr (Or.inr (Or.inr (Or.inr (Or.inr (Or.inr
      (Or.inr (Or.inl (char_eq_of_toNat h)))))))))
  · exact Or.inr (Or.inr (Or.inr (Or.inr (Or.inr (Or.inr (Or.inr
      (Or.inr (Or.inr (char_eq_of_toNat h)))))))))

/-- `parseVal` on an input starting with a minus sign or digit reads an
integer token. -/
theorem parseVal_num (f : Nat) (c : Char) (tail : List Char) (n : Int) (r : List Char)
    (hc : c = '-' ∨ c.isDigit = true)
    (hp : parseInt (c :: tail) = some (n, r)) :
    parseVal (f + 1) (c :: tail) = some (.int n, r) := by
  have hall : c = '-' ∨ c = '0' ∨ c = '1' ∨ c = '2' ∨ c = '3' ∨ c = '4' ∨
      c = '5' ∨ c = '6' ∨ c = '7' ∨ c = '8' ∨ c = '9' := by
    rcases hc with h | h
    · exact Or.inl h
    · exact Or.inr (isDigit_cases c h)
  rcases hall with rfl | rfl | rfl | rfl | rfl | rfl | rfl | rfl | rfl | rfl | rfl <;>
    (rw [parseVal.eq_def]; simp [hp, skipWs, isWsChar, lbrace])

theorem skipWs_idem (cs : List Char) : skipWs (skipWs cs) = skipWs cs := by
  induction cs with
  | nil => rfl
  | cons c cs ih =>
      by_cases h : isWsChar c = true
      · rw [skipWs, if_pos h, ih]
      · rw [skipWs, if_neg h, skipWs, if_neg h]

theorem parseVal_succ (f : Nat) (cs : List Char) :
    parseVal (f + 1) cs = parseVal (f + 1) (skipWs cs) := by
  rw [parseVal.eq_def]
  conv_rhs => rw [parseVal.eq_def]
  dsimp only
  rw [skipWs_idem]

theorem parseVal_ws_front (f : Nat) (pre cs : List Char)
    (hpre : pre.all isWsChar = true) :
    parseVal (f + 1) (pre ++ cs) = parseVal (f + 1) cs := by
  rw [parseVal_succ, skipWs_ws_front pre hpre cs, ← parseVal_succ]

theorem one_le_sV (v : Json) : 1 ≤ sV v := by
  cases v <;> simp [sV]

/-- The first character of any serialized value: never whitespace and never a
closing bracket. -/
theorem dumps_head (ind : Nat) (v : Json) :
    ∃ c cs, dumpsV ind v = c :: cs ∧ isWsChar c = false ∧ ¬ c = ']' := by
  cases v with
  | null => exact ⟨'n', _, by rw [dumpsV], by decide, by decide⟩
  | bool b =>
      cases b with
      | true => exact ⟨'t', _, by rw [dumpsV], by decide, by decide⟩
      | false => exact ⟨'f', _, by rw [dumpsV], by decide, by decide⟩
  | int n =>
      cases n with
      | ofNat m =>
          obtain ⟨ha, _, hc⟩ := natDigits_spec m
          cases hnd : natDigits m with
          | nil => exact absurd hnd hc
          | cons c ds =>
              rw [hnd] at ha
              simp only [List.all_cons, Bool.and_eq_true] at ha
              refine ⟨c, ds, ?_, isDigit_not_ws c ha.1, ?_⟩
              · rw [dumpsV]
                show natDigits m = c :: ds
                exact hnd
              · intro he
                subst he
                exact absurd ha.1 (by decide)
      | negSucc m =>
          exact ⟨'-', _, by rw [dumpsV]; rfl, by decide, by decide⟩
  | str s => exact ⟨'"', _, by rw [dumpsV]; rfl, by decide, by decide⟩
  | arr xs =>
      cases xs with
      | nil => exact ⟨'[', _, by rw [dumpsV], by decide, by decide⟩
      | cons x xs => exact ⟨'[', _, by rw [dumpsV], by decide, by decide⟩
  | obj kvs =>
      cases kvs with
      | nil => exact ⟨lbrace, _, by rw [dumpsV], by decide, by decide⟩
      | cons kv kvs =>
          obtain ⟨k, v⟩ := kv
          exact ⟨lbrace, _, by rw [dumpsV], by decide, by decide⟩

theorem skipWs_dumps (ind : Nat) (v : Json) (rest : List Char) :
    skipWs (dumpsV ind v ++ rest) = dumpsV ind v ++ rest := by
  obtain ⟨c, cs, he, hw, _⟩ := dumps_head ind v
  rw [he, List.cons_append, skipWs_cons_not_ws c _ hw]

theorem skipWs_colon (cs : List Char) : skipWs (':' :: cs) = ':' :: cs :=
  skipWs_cons_not_ws _ _ (by decide)

theorem skipWs_comma (cs : List Char) : skipWs (',' :: cs) = ',' :: cs :=
  skipWs_cons_not_ws _ _ (by decide)

/-! #### The parser reads back exactly what the serializer wrote -/

theorem parse_dumps_main : ∀ fuel : Nat,
    (∀ v ind rest, wfV v = true → sV v ≤ fuel → headNotDigit rest = true →
      parseVal fuel (dumpsV ind v ++ rest) = some (v, rest)) ∧
    (∀ x xs ind rest pre, wfV x = true → wfArr xs = true → sE (x :: xs) ≤ fuel →
      pre.all isWsChar = true →
      parseElems fuel (pre ++ (dumpsV (ind + 2) x ++ (dumpsArrItems ind xs ++
        '\n' :: (spaces ind ++ (']' :: rest))))) = some (x :: xs, rest)) ∧
    (∀ k v kvs ind rest pre, (k.all fun c => 32 ≤ c.toNat) = true → wfV v = true →
      wfObj kvs = true → sM ((k, v) :: kvs) ≤ fuel → pre.all isWsChar = true →
      parseMembers fuel (pre ++ ('"' :: (escapeString k ++ ('"' :: (':' :: ' ' ::
        (dumpsV (ind + 2) v ++ (dumpsObjItems ind kvs ++
          '\n' :: (spaces ind ++ (rbrace :: rest))))))))) = some ((k, v) :: kvs, rest)) := by
  intro fuel
  induction fuel using Nat.strong_induction_on with
  | _ fuel IH =>
  refine ⟨?_, ?_, ?_⟩
  · intro v ind rest hwf hsz hrest
    cases fuel with
    | zero => have := one_le_sV v; omega
    | succ f =>
    cases v with
    | null =>
        rw [dumpsV, parseVal.eq_def]
        rfl
    | bool b =>
        cases b with
        | true => rw [dumpsV, parseVal.eq_def]; rfl
        | false => rw [dumpsV, parseVal.eq_def]; rfl
    | int n =>
        rw [dumpsV]
        have hp := parseInt_intDigits n rest hrest
        cases n with
        | ofNat m =>
            obtain ⟨ha, _, hc⟩ := natDigits_spec m
            cases hnd : natDigits m with
            | nil => exact absurd hnd hc
            | cons c ds =>
                rw [show intDigits (Int.ofNat m) = natDigits m from rfl, hnd,
                  List.cons_append] at hp ⊢
                refine parseVal_num f c _ _ _ (Or.inr ?_) hp
                rw [hnd] at ha
                simp only [List.all_cons, Bool.and_eq_true] at ha
                exact ha.1
        | negSucc m =>
            rw [show intDigits (Int.negSucc m) = '-' :: natDigits (m + 1) from rfl,
              List.cons_append] at hp ⊢
            exact parseVal_num f '-' _ _ _ (Or.inl rfl) hp
    | str s =>
        rw [wfV] at hwf
        rw [dumpsV, quoteStr, List.cons_append, List.append_assoc, List.singleton_append]
        rw [parseVal.eq_def]
        simp [skipWs, isWsChar, parseStringBody_escape s hwf rest]
    | arr xs =>
        cases xs with
        | nil =>
            rw [dumpsV, parseVal.eq_def]
            rfl
        | cons x xs =>
            rw [wfV, wfArr] at hwf
            simp only [Bool.and_eq_true] at hwf
            rw [sV] at hsz
            rw [dumpsV]
            simp only [List.cons_append, List.append_assoc, List.singleton_append]
            have hsw : skipWs ('\n' :: (spaces (ind + 2) ++ (dumpsV (ind + 2) x ++
                (dumpsArrItems ind xs ++ '\n' :: (spaces ind ++ (']' :: rest)))))) =
                dumpsV (ind + 2) x ++
                  (dumpsArrItems ind xs ++ '\n' :: (spaces ind ++ (']' :: rest))) := by
              rw [show ('\n' :: (spaces (ind + 2) ++ (dumpsV (ind + 2) x ++
                  (dumpsArrItems ind xs ++ '\n' :: (spaces ind ++ (']' :: rest)))))) =
                  (('\n' :: spaces (ind + 2)) ++ (dumpsV (ind + 2) x ++
                  (dumpsArrItems ind xs ++ '\n' :: (spaces ind ++ (']' :: rest))))) from rfl]
              rw [skipWs_ws_front _ (by simp [spaces_all_ws, isWsChar]) _]
              exact skipWs_dumps (ind + 2) x _
            have helems := (IH f (by omega)).2.1 x xs ind rest [] hwf.1 hwf.2
              (by omega) rfl
            rw [List.nil_append] at helems
            rw [parseVal.eq_def]
            show (match skipWs ('\n' :: (spaces (ind + 2) ++ (dumpsV (ind + 2) x ++
                (dumpsArrItems ind xs ++ '\n' :: (spaces ind ++ (']' :: rest)))))) with
              | ']' :: rest2 => some (Json.arr [], rest2)
              | cs2 =>
                  match parseElems f cs2 with
                  | some (xs, rest2) => some (Json.arr xs, rest2)
                  | none => none) = some (Json.arr (x :: xs), rest)
            rw [hsw]
            split
            · next rest2 heq =>
                obtain ⟨c, cs, he, _, hne⟩ := dumps_head (ind + 2) x
                rw [he, List.cons_append] at heq
                injection heq with h1 _
                exact absurd h1 hne
            · next hne2 =>
                rw [helems]
    | obj kvs =>
        cases kvs with
        | nil =>
            rw [dumpsV, parseVal.eq_def]
            rfl
        | cons kv kvs =>
            obtain ⟨k, v⟩ := kv
            rw [wfV] at hwf
            simp only [Bool.and_eq_true] at hwf
            have hwo := hwf.2
            rw [wfObj] at hwo
            simp only [Bool.and_eq_true] at hwo
            rw [sV] at hsz
            rw [dumpsV, quoteStr]
            simp only [List.cons_append, List.append_assoc, List.singleton_append]
            have hsw : skipWs ('\n' :: (spaces (ind + 2) ++ ('"' :: (escapeString k ++
                ('"' :: (':' :: ' ' :: (dumpsV (ind + 2) v ++ (dumpsObjItems ind kvs ++
                '\n' :: (spaces ind ++ (rbrace :: rest)))))))))) =
                '"' :: (escapeString k ++ ('"' :: (':' :: ' ' :: (dumpsV (ind + 2) v ++
                (dumpsObjItems ind kvs ++ '\n' :: (spaces ind ++ (rbrace :: rest))))))) := by
              rw [show ('\n' :: (spaces (ind + 2) ++ ('"' :: (escapeString k ++
                  ('"' :: (':' :: ' ' :: (dumpsV (ind + 2) v ++ (dumpsObjItems ind kvs ++
                  '\n' :: (spaces ind ++ (rbrace :: rest)))))))))) =
                  (('\n' :: spaces (ind + 2)) ++ ('"' :: (escapeString k ++
                  ('"' :: (':' :: ' ' :: (dumpsV (ind + 2) v ++ (dumpsObjItems ind kvs ++
                  '\n' :: (spaces ind ++ (rbrace :: rest))))))))) from rfl]
              rw [skipWs_ws_front _ (by simp [spaces_all_ws, isWsChar]) _]
              exact skipWs_cons_not_ws _ _ (by decide)
            have hmem := (IH f (by omega)).2.2 k v kvs ind rest [] hwo.1.1 hwo.1.2 hwo.2
              (by omega) rfl
            rw [List.nil_append] at hmem
            rw [parseVal.eq_def]
            show (match skipWs ('\n' :: (spaces (ind + 2) ++ ('"' :: (escapeString k ++
                ('"' :: (':' :: ' ' :: (dumpsV (ind + 2) v ++ (dumpsObjItems ind kvs ++
                '\n' :: (spaces ind ++ (rbrace :: rest)))))))))) with
              | c2 :: rest2 =>
                  if c2 = rbrace then some (Json.obj [], rest2)
                  else
                    match parseMembers f (c2 :: rest2) with
                    | some (kvs, rest3) => some (Json.obj kvs, rest3)
                    | none => none
              | [] => none) = some (Json.obj ((k, v) :: kvs), rest)
            rw [hsw]
            dsimp only
            rw [if_neg (show ¬ ('"' : Char) = rbrace by decide)]
            rw [hmem]
  · intro x xs ind rest pre hwx hwxs hsz hpre
    cases fuel with
    | zero => rw [sE] at hsz; have := one_le_sV x; omega
    | succ f =>
    rw [sE] at hsz
    have hf1 : 1 ≤ f := by have := one_le_sV x; omega
    obtain ⟨f2, rfl⟩ : ∃ f2, f = f2 + 1 := ⟨f - 1, by omega⟩
    rw [parseElems]
    have hnd : headNotDigit (dumpsArrItems ind xs ++
        '\n' :: (spaces ind ++ (']' :: rest))) = true := by
      cases xs with
      | nil => rw [dumpsArrItems, List.nil_append]; rfl
      | cons y ys => rw [dumpsArrItems, List.cons_append]; rfl
    have hval := (IH (f2 + 1) (by omega)).1 x (ind + 2)
      (dumpsArrItems ind xs ++ '\n' :: (spaces ind ++ (']' :: rest))) hwx (by omega) hnd
    have hval2 : parseVal (f2 + 1) (pre ++ (dumpsV (ind + 2) x ++
        (dumpsArrItems ind xs ++ '\n' :: (spaces ind ++ (']' :: rest))))) =
        some (x, dumpsArrItems ind xs ++ '\n' :: (spaces ind ++ (']' :: rest))) := by
      rw [parseVal_ws_front f2 pre _ hpre]
      exact hval
    rw [hval2]
    cases xs with
    | nil =>
        simp only [dumpsArrItems, List.nil_append]
        have hsw : skipWs ('\n' :: (spaces ind ++ (']' :: rest))) = ']' :: rest := by
          rw [show ('\n' :: (spaces ind ++ (']' :: rest))) =
            (('\n' :: spaces ind) ++ (']' :: rest)) from rfl]
          rw [skipWs_ws_front _ (by simp [spaces_all_ws, isWsChar]) _]
          exact skipWs_cons_not_ws _ _ (by decide)
        simp [hsw]
    | cons y ys =>
        simp only [wfArr, Bool.and_eq_true] at hwxs
        simp only [dumpsArrItems, List.cons_append, List.append_assoc]
        have helems := (IH (f2 + 1) (by omega)).2.1 y ys ind rest ('\n' :: spaces (ind + 2))
          hwxs.1 hwxs.2 (by omega) (by simp [spaces_all_ws, isWsChar])
        rw [List.cons_append] at helems
        simp [skipWs, isWsChar, helems]
  · intro k v kvs ind rest pre hk hv hkvs hsz hpre
    cases fuel with
    | zero => rw [sM] at hsz; have := one_le_sV v; omega
    | succ f =>
    rw [sM] at hsz
    have hf1 : 1 ≤ f := by have := one_le_sV v; omega
    obtain ⟨f2, rfl⟩ : ∃ f2, f = f2 + 1 := ⟨f - 1, by omega⟩
    rw [parseMembers]
    have hsw0 : skipWs (pre ++ ('"' :: (escapeString k ++ ('"' :: (':' :: ' ' ::
        (dumpsV (ind + 2) v ++ (dumpsObjItems ind kvs ++
        '\n' :: (spaces ind ++ (rbrace :: rest))))))))) =
        '"' :: (escapeString k ++ ('"' :: (':' :: ' ' ::
        (dumpsV (ind + 2) v ++ (dumpsObjItems ind kvs ++
        '\n' :: (spaces ind ++ (rbrace :: rest))))))) := by
      rw [skipWs_ws_front pre hpre]
      exact skipWs_cons_not_ws _ _ (by decide)
    have hnd : headNotDigit (dumpsObjItems ind kvs ++
        '\n' :: (spaces ind ++ (rbrace :: rest))) = true := by
      cases kvs with
      | nil => rw [dumpsObjItems, List.nil_append]; rfl
      | cons kv2 kvs2 =>
          obtain ⟨k2, v2⟩ := kv2
          rw [dumpsObjItems, List.cons_append]
          rfl
    have hval : parseVal (f2 + 1) (' ' :: (dumpsV (ind + 2) v ++ (dumpsObjItems ind kvs ++
        '\n' :: (spaces ind ++ (rbrace :: rest))))) =
        some (v, dumpsObjItems ind kvs ++ '\n' :: (spaces ind ++ (rbrace :: rest))) := by
      rw [show (' ' :: (dumpsV (ind + 2) v ++ (dumpsObjItems ind kvs ++
          '\n' :: (spaces ind ++ (rbrace :: rest))))) =
          ([' '] ++ (dumpsV (ind + 2) v ++ (dumpsObjItems ind kvs ++
          '\n' :: (spaces ind ++ (rbrace :: rest))))) from rfl]
      rw [parseVal_ws_front f2 [' '] _ (by decide)]
      exact (IH (f2 + 1) (by omega)).1 v (ind + 2) _ hv (by omega) hnd
    rw [hsw0]
    cases kvs with
    | nil =>
        simp only [dumpsObjItems, List.nil_append] at hval ⊢
        have hsw : skipWs ('\n' :: (spaces ind ++ (rbrace :: rest))) = rbrace :: rest := by
          rw [show ('\n' :: (spaces ind ++ (rbrace :: rest))) =
            (('\n' :: spaces ind) ++ (rbrace :: rest)) from rfl]
          rw [skipWs_ws_front _ (by simp [spaces_all_ws, isWsChar]) _]
          exact skipWs_cons_not_ws _ _ (by decide)
        simp only [parseStringBody_escape k hk, skipWs_colon, hval, hsw]
        show (if rbrace = rbrace then some ([(k, v)], rest) else none) = some ([(k, v)], rest)
        rw [if_pos rfl]
    | cons kv2 kvs2 =>
        obtain ⟨k2, v2⟩ := kv2
        simp only [wfObj, Bool.and_eq_true] at hkvs
        simp only [dumpsObjItems, quoteStr, List.cons_append, List.append_assoc,
          List.singleton_append, List.nil_append] at hval ⊢
        have hmem := (IH (f2 + 1) (by omega)).2.2 k2 v2 kvs2 ind rest
          ('\n' :: spaces (ind + 2)) hkvs.1.1 hkvs.1.2 hkvs.2 (by omega)
          (by simp [spaces_all_ws, isWsChar])
        rw [List.cons_append] at hmem
        simp only [parseStringBody_escape k hk, skipWs_colon, skipWs_comma, hval, hmem]

/-! #### Fuel sufficiency: the parser's fuel bound is at most the text length -/

theorem sizes_le : ∀ n : Nat,
    (∀ v : Json, sizeOf v ≤ n → ∀ ind, sV v ≤ (dumpsV ind v).length) ∧
    (∀ xs : List Json, sizeOf xs ≤ n → ∀ ind, sE xs ≤ (dumpsArrItems ind xs).length) ∧
    (∀ kvs : JDict, sizeOf kvs ≤ n → ∀ ind, sM kvs ≤ (dumpsObjItems ind kvs).length) := by
  intro n
  induction n using Nat.strong_induction_on with
  | _ n IHn =>
  refine ⟨?_, ?_, ?_⟩
  · intro v hsz ind
    cases v with
    | null => simp [sV, dumpsV]
    | bool b => cases b <;> simp [sV, dumpsV]
    | int m =>
        have h1 : 1 ≤ (intDigits m).length := by
          cases m with
          | ofNat m0 =>
              obtain ⟨_, _, hc⟩ := natDigits_spec m0
              show 1 ≤ (natDigits m0).length
              cases hnd : natDigits m0 with
              | nil => exact absurd hnd hc
              | cons c ds => simp
          | negSucc m0 => simp [intDigits]
        calc sV (.int m) = 1 := by simp [sV]
          _ ≤ (intDigits m).length := h1
          _ = (dumpsV ind (.int m)).length := by rw [dumpsV]
    | str s =>
        rw [dumpsV, quoteStr]
        simp [sV]
    | arr xs =>
        cases xs with
        | nil => simp [sV, sE, dumpsV]
        | cons x xs =>
            have hx : sizeOf x < n := by
              have := Json.arr.sizeOf_spec (x :: xs)
              have := List.cons.sizeOf_spec x xs
              omega
            have hxs : sizeOf xs < n := by
              have := Json.arr.sizeOf_spec (x :: xs)
              have := List.cons.sizeOf_spec x xs
              omega
            have h1 := (IHn (sizeOf x) hx).1 x le_rfl (ind + 2)
            have h2 := (IHn (sizeOf xs) hxs).2.1 xs le_rfl ind
            rw [dumpsV]
            simp only [sV, sE, List.length_cons, List.length_append, spaces,
              List.length_replicate, List.length_singleton]
            omega
    | obj kvs =>
        cases kvs with
        | nil => simp [sV, sM, dumpsV]
        | cons kv kvs =>
            obtain ⟨k, v⟩ := kv
            have hv : sizeOf v < n := by
              have := Json.obj.sizeOf_spec ((k, v) :: kvs)
              have := List.cons.sizeOf_spec (k, v) kvs
              have := Prod.mk.sizeOf_spec k v
              omega
            have hkvs : sizeOf kvs < n := by
              have := Json.obj.sizeOf_spec ((k, v) :: kvs)
              have := List.cons.sizeOf_spec (k, v) kvs
              omega
            have h1 := (IHn (sizeOf v) hv).1 v le_rfl (ind + 2)
            have h2 := (IHn (sizeOf kvs) hkvs).2.2 kvs le_rfl ind
            rw [dumpsV]
            simp only [sV, sM, quoteStr, List.length_cons, List.length_append, spaces,
              List.length_replicate, List.length_singleton]
            omega
  · intro xs hsz ind
    cases xs with
    | nil => simp [sE, dumpsArrItems]
    | cons x xs =>
        have hx : sizeOf x < n := by
          have := List.cons.sizeOf_spec x xs
          omega
        have hxs : sizeOf xs < n := by
          have := List.cons.sizeOf_spec x xs
          omega
        have h1 := (IHn (sizeOf x) hx).1 x le_rfl (ind + 2)
        have h2 := (IHn (sizeOf xs) hxs).2.1 xs le_rfl ind
        rw [dumpsArrItems]
        simp only [sE, List.length_cons, List.length_append, spaces, List.length_replicate]
        omega
  · intro kvs hsz ind
    cases kvs with
    | nil => simp [sM, dumpsObjItems]
    | cons kv kvs =>
        obtain ⟨k, v⟩ := kv
        have hv : sizeOf v < n := by
          have := List.cons.sizeOf_spec (k, v) kvs
          have := Prod.mk.sizeOf_spec k v
          omega
        have hkvs : sizeOf kvs < n := by
          have := List.cons.sizeOf_spec (k, v) kvs
          omega
        have h1 := (IHn (sizeOf v) hv).1 v le_rfl (ind + 2)
        have h2 := (IHn (sizeOf kvs) hkvs).2.2 kvs le_rfl ind
        rw [dumpsObjItems]
        simp only [sM, quoteStr, List.length_cons, List.length_append, spaces,
          List.length_replicate, List.length_singleton]
        omega

theorem sV_le_length (v : Json) (ind : Nat) : sV v ≤ (dumpsV ind v).length :=
  (sizes_le (sizeOf v)).1 v le_rfl ind

/-- `json.loads` inverts `json.dumps` on every well-formed value. -/
theorem loads_dumps (v : Json) (hwf : wfV v = true) :
    loads (dumpsV 0 v) = some v := by
  unfold loads
  have hmain := (parse_dumps_main ((dumpsV 0 v).length + 1)).1 v 0 [] hwf
    (le_trans (sV_le_length v 0) (by omega)) rfl
  rw [List.append_nil] at hmain
  rw [hmain]
  show (if skipWs [] = [] then some v else none) = some v
  rfl

/-- The embedded ledger of a reloaded record (`PipelineState.__init__` with
`self.draft["_pipeline_state"]` access; non-objects carry no ledger). -/
def stateOfJson : Json → JDict
  | .obj kvs => Produce.stateOf kvs
  | _ => []

/-- C8: serializing a job record with `PipelineState.save` and parsing the
written JSON back yields the identical record, so `is_done`, `is_failed` and
`get_artifact` agree with the original on every stage and artifact key.
Well-formedness asks exactly what Python guarantees of a `dict`: distinct
keys and control-free strings. -/
theorem claim_C8 (draft : JDict) (h : wfV (.obj draft) = true) :
    loads (saveString draft) = some (.obj draft) ∧
    (∀ j, loads (saveString draft) = some j →
      (∀ stage, is_done (stateOfJson j) stage = is_done (stateOfJson (.obj draft)) stage) ∧
      (∀ stage, is_failed (stateOfJson j) stage = is_failed (stateOfJson (.obj draft)) stage) ∧
      (∀ stage key dflt, get_artifact (stateOfJson j) stage key dflt =
        get_artifact (stateOfJson (.obj draft)) stage key dflt)) := by
  have hl : loads (saveString draft) = some (.obj draft) := loads_dumps (.obj draft) h
  refine ⟨hl, ?_⟩
  intro j hj
  rw [hl] at hj
  injection hj with hj2
  subst hj2
  exact ⟨fun _ => rfl, fun _ => rfl, fun _ _ _ => rfl⟩

/-- A concrete job record with two completed stages and one failed stage. -/
def roundTripRecordT : JDict :=
  [("job_id".data, Json.str "1700000000".data),
   ("script".data, Json.str "A short script".data),
   (Produce.psKey, Json.obj
     [("research".data, Json.obj [("status".data, Json.str "done".data),
        ("timestamp".data, Json.str "t1".data)]),
      ("draft".data, Json.obj [("status".data, Json.str "done".data),
        ("timestamp".data, Json.str "t2".data),
        ("artifacts".data, Json.obj [("path".data, Json.str "out.json".data)])]),
      ("voiceover".data, Json.obj [("status".data, Json.str "failed".data),
        ("timestamp".data, Json.str "t3".data),
        ("error".data, Json.str "API error".data)])])]

/-- Closed witness for C8 at the two-done-one-failed record. -/
theorem claim_C8_witness :
    wfV (.obj roundTripRecordT) = true ∧
    loads (saveString roundTripRecordT) = some (.obj roundTripRecordT) ∧
    is_done (stateOfJson (.obj roundTripRecordT)) "research".data = true ∧
    is_done (stateOfJson (.obj roundTripRecordT)) "draft".data = true ∧
    is_failed (stateOfJson (.obj roundTripRecordT)) "voiceover".data = true :=
  ⟨by decide, (claim_C8 roundTripRecordT (by decide)).1, by decide, by decide, by decide⟩

end Serial

end Pipeline
